import Mathlib

/-!
Verification of the Meno telegram bot's streaming pipeline and text
processing, modelled as a shallow embedding over `List Char`.
The definitions mirror the functions of `src/meno_telegram_bot/main.py`
and `src/meno_telegram_bot/utils/telegram_format.py`.
-/

namespace Meno

/-- Whitespace test for the ASCII whitespace characters recognised by
Python's `str.strip()` and the regex class used by the source. -/
def isWs (c : Char) : Bool :=
  (c == ' ') || (c == '\t') || (c == '\n') || (c == '\r') || (c == '\x0b') || (c == '\x0c')

/-- Trim leading and trailing whitespace, as Python's `str.strip()` does. -/
def trimWs (s : List Char) : List Char :=
  ((s.dropWhile isWs).reverse.dropWhile isWs).reverse

/-- Boolean test that `p` is a prefix of `s` (Python `str.startswith`). -/
def hasPrefixC : List Char → List Char → Bool
  | [], _ => true
  | _ :: _, [] => false
  | p :: ps, c :: cs => (p == c) && hasPrefixC ps cs

/-- Locate the first occurrence of `pat` inside a text: `some (pre, post)`
means the text is `pre ++ pat ++ post` with the occurrence leftmost.
This models Python's `str.split(pat, 1)`, `str.find` and the scanning
position of `re` for a literal pattern. -/
def splitFirst (pat : List Char) : List Char → Option (List Char × List Char)
  | [] => if hasPrefixC pat [] then some ([], []) else none
  | c :: rest =>
    if hasPrefixC pat (c :: rest) then some ([], (c :: rest).drop pat.length)
    else
      match splitFirst pat rest with
      | some (pre, post) => some (c :: pre, post)
      | none => none

/-- Occurrence of `pat` as a contiguous substring of `s`. -/
def occursIn (pat s : List Char) : Prop := ∃ x y, s = x ++ pat ++ y

/-! Model of `escape_markdown_v2` from
`src/meno_telegram_bot/utils/telegram_format.py`:
`re.sub("([" + escaped reserved set + "])", backslash-group, text)` with an
early return of the empty string on empty input. -/

/-- The reserved MarkdownV2 characters of `TELEGRAM_ESCAPE_CHARS`. -/
def escapeChars : List Char := "_*[]()~`>#+-=|\x7b\x7d.!\\".toList

/-- Effect of the escaping substitution on one character. -/
def escChar (c : Char) : List Char :=
  if c ∈ escapeChars then ['\\', c] else [c]

/-- Model of `escape_markdown_v2`: every reserved character is replaced by a
backslash followed by the character; all other characters are kept. -/
def escape_markdown_v2 (s : List Char) : List Char :=
  if s = [] then [] else (s.map escChar).flatten

/-! Model of `strip_think_from_text` from `main.py`: early return when the
text has no `<think>`, then `re.sub("<think>.*?</think>", "", text, DOTALL)`
(leftmost non-greedy removal, modelled by `removeThinkGo`), then truncation
at a remaining `<think>` via `split(THINK_OPEN, 1)[0]`, then `strip()`. -/

def THINK_OPEN : List Char := "<think>".toList

def THINK_CLOSE : List Char := "</think>".toList

/-- Repeatedly delete the leftmost `<think>…</think>` span (minimal span:
up to the first following close marker), continuing after the deleted span;
this is the effect of the non-greedy global `re.sub`. The fuel argument is
instantiated with the text length, which bounds the number of spans. -/
def removeThinkGo : Nat → List Char → List Char
  | 0, s => s
  | Nat.succ f, s =>
    match splitFirst THINK_OPEN s with
    | none => s
    | some (pre, rest) =>
      match splitFirst THINK_CLOSE rest with
      | none => s
      | some (_, rest2) => pre ++ removeThinkGo f rest2

/-- Model of `strip_think_from_text`. -/
def strip_think_from_text (s : List Char) : List Char :=
  match splitFirst THINK_OPEN s with
  | none => s
  | some _ =>
    let cleaned := removeThinkGo s.length s
    let cleaned2 :=
      match splitFirst THINK_OPEN cleaned with
      | some (pre, _) => pre
      | none => cleaned
    trimWs cleaned2

/-! Model of the per-conversation history handling of `process_backend`
(`main.py`): the user turn is appended first, the request window is the
slice `history[-MAX_HISTORY_MESSAGES:]` computed right after, and in the
`finally` block an assistant turn is appended and the history trimmed to
`history[-2 * MAX_HISTORY_MESSAGES:]` only when the final answer is truthy
(a non-empty string). -/

structure Turn where
  role : List Char
  content : List Char
deriving DecidableEq

def MAX_HISTORY_MESSAGES : Nat := 12

/-- Python slice `l[-n:]` for `n > 0`: the last `n` elements (all of them
when fewer are present). -/
def pyLastSlice (n : Nat) (l : List Turn) : List Turn := l.drop (l.length - n)

/-- Final answer of a run on the no-exception path: the non-streaming reply
is used only when the accumulated raw answer is whitespace-only
(`if not raw_answer.strip()`), and the think section is stripped either
way. On the exception path the source substitutes a non-empty fallback
phrase, which then follows the same non-empty branch below. -/
def finalAnswerOf (raw nonStreamReply : List Char) : List Char :=
  if trimWs raw = [] then strip_think_from_text nonStreamReply
  else strip_think_from_text raw

def userRole : List Char := "user".toList

def assistantRole : List Char := "assistant".toList

/-- History effect of one `process_backend` run: the request window sent to
the backend, and the stored history after the `finally` block. -/
def process_backend_history (history : List Turn) (userText raw nonStreamReply : List Char) :
    List Turn × List Turn :=
  let h1 := history ++ [⟨userRole, userText⟩]
  let window := pyLastSlice MAX_HISTORY_MESSAGES h1
  let fa := finalAnswerOf raw nonStreamReply
  let h2 :=
    if fa ≠ [] then
      let h := h1 ++ [⟨assistantRole, fa⟩]
      if 2 * MAX_HISTORY_MESSAGES < h.length then pyLastSlice (2 * MAX_HISTORY_MESSAGES) h
      else h
    else h1
  (window, h2)

/-- One whole run whose stream produced only a think section, so the final
answer strips to the empty string and the `finally` block appends nothing
and trims nothing, while the user turn appended at the start remains. -/
def thinkOnlyStep (h : List Turn) : List Turn :=
  (process_backend_history h "hi".toList "<think>x</think>".toList []).2

/-! Model of the admission and release logic of `message_handler`
(`main.py`): the membership check against the global `pending_users` set,
the insertion, the `await message.answer(...)` that posts the placeholder
between the insertion and the protected `try` block, and the `finally`
blocks of `process_backend` and `message_handler`, each of which runs
`pending_users.discard(user_id)` (an idempotent removal, modelled once).
`placeholderSendOk = false` models an exception or a cancellation raised at
that unprotected await. The pipeline outcome does not affect the pending
set because the `finally` blocks run on success, error and cancellation
alike. -/

inductive HandlerExit where
  | rejected
  | crashedBeforeTasks
  | completed
deriving DecidableEq

def message_handler (pending : Finset Nat) (userId : Nat) (placeholderSendOk : Bool) :
    Finset Nat × HandlerExit :=
  if userId ∈ pending then (pending, .rejected)
  else
    let p1 := insert userId pending
    if placeholderSendOk then (p1.erase userId, .completed)
    else (p1, .crashedBeforeTasks)

/-! Model of the edit throttling of `process_backend`: for each rendered
fragment the source reads `now = time.time()` and the conversation's
`last_edit_times[chat_id]`, and when `now - last_edit >=
MIN_EDIT_INTERVAL` it stores `now` back — before attempting the edit, so
also when the edit then fails — and performs the edit call. Times are
rationals; each list entry is a fragment's render time paired with whether
the edit call would succeed. -/

def MIN_EDIT_INTERVAL : ℚ := 4/5

/-- Throttle loop of the source: returns the times of the edit calls made,
the final stored `last_edit_times` value, and the time of the last
successful edit (threaded only to observe the claim about `RateWindow`). -/
def throttleRun (last : ℚ) (lastSuccess : Option ℚ) :
    List (ℚ × Bool) → List ℚ × ℚ × Option ℚ
  | [] => ([], last, lastSuccess)
  | (t, ok) :: rest =>
    if last + MIN_EDIT_INTERVAL ≤ t then
      let r := throttleRun t (if ok then some t else lastSuccess) rest
      (t :: r.1, r.2)
    else throttleRun last lastSuccess rest

/-- Modelled from the spec: a `RateWindow` holding the last successful edit
timestamp, advanced only when the edit call succeeds, with edits throttled
against that value. Used only to compare the claim's wording against the
source's behaviour. -/
def specThrottleRun (lastSuccessTime : ℚ) : List (ℚ × Bool) → List ℚ
  | [] => []
  | (t, ok) :: rest =>
    if lastSuccessTime + MIN_EDIT_INTERVAL ≤ t then
      if ok then t :: specThrottleRun t rest
      else t :: specThrottleRun lastSuccessTime rest
    else specThrottleRun lastSuccessTime rest

/-! Model of the empty-stream fallback decision of `process_backend`: the
raw answer accumulates the streamed fragments (falsy, i.e. empty, pieces
are skipped by `if not piece: continue`, which does not change the
concatenation), and the non-streaming `get_backend_response` is invoked —
with the same payload built from the request window before streaming —
exactly when `raw_answer.strip()` is empty. -/

/-- Returns the list of request windows passed to the non-streaming
fallback call (one entry per invocation) and the final cleaned answer. -/
def process_backend_calls (history : List Turn) (userText : List Char)
    (frags : List (List Char)) (nonStreamReply : List Char) :
    List (List Turn) × List Char :=
  let h1 := history ++ [⟨userRole, userText⟩]
  let window := pyLastSlice MAX_HISTORY_MESSAGES h1
  let raw := frags.flatten
  if trimWs raw = [] then ([window], strip_think_from_text nonStreamReply)
  else ([], strip_think_from_text raw)

/-! Model of the byte handling of `stream_backend_response`: each received
chunk is decoded on its own by `chunk.decode("utf-8", errors="ignore")` and
appended to the persistent text buffer; the buffer is then split on
`"\n\n"` into complete SSE events. -/

/-- Continuation byte test, `0x80..0xBF`. -/
def contByte (b : Nat) : Bool := decide (128 ≤ b) && decide (b ≤ 191)

/-- Valid second byte after a 3- or 4-byte lead (the constrained ranges of
well-formed UTF-8, excluding overlongs and surrogates). -/
def validSecond (lead b : Nat) : Bool :=
  if lead = 224 then decide (160 ≤ b) && decide (b ≤ 191)
  else if lead = 237 then decide (128 ≤ b) && decide (b ≤ 159)
  else if lead = 240 then decide (144 ≤ b) && decide (b ≤ 191)
  else if lead = 244 then decide (128 ≤ b) && decide (b ≤ 143)
  else contByte b

/-- Model of `bytes.decode("utf-8", errors="ignore")`: well-formed
sequences decode to their code point; malformed or truncated input is
dropped (the lead byte together with the valid continuation bytes already
consumed), decoding never fails. The fuel argument is instantiated with
the byte count, which every step decreases. -/
def decodeUtf8Go : Nat → List Nat → List Char
  | 0, _ => []
  | Nat.succ _, [] => []
  | Nat.succ f, b :: rest =>
    if b ≤ 127 then Char.ofNat b :: decodeUtf8Go f rest
    else if 194 ≤ b ∧ b ≤ 223 then
      match rest with
      | [] => []
      | b2 :: rest2 =>
        if contByte b2 then
          Char.ofNat ((b - 192) * 64 + (b2 - 128)) :: decodeUtf8Go f rest2
        else decodeUtf8Go f rest
    else if 224 ≤ b ∧ b ≤ 239 then
      match rest with
      | [] => []
      | b2 :: rest2 =>
        if validSecond b b2 then
          match rest2 with
          | [] => []
          | b3 :: rest3 =>
            if contByte b3 then
              Char.ofNat ((b - 224) * 4096 + (b2 - 128) * 64 + (b3 - 128))
                :: decodeUtf8Go f rest3
            else decodeUtf8Go f rest2
        else decodeUtf8Go f rest
    else if 240 ≤ b ∧ b ≤ 244 then
      match rest with
      | [] => []
      | b2 :: rest2 =>
        if validSecond b b2 then
          match rest2 with
          | [] => []
          | b3 :: rest3 =>
            if contByte b3 then
              match rest3 with
              | [] => []
              | b4 :: rest4 =>
                if contByte b4 then
                  Char.ofNat ((b - 240) * 262144 + (b2 - 128) * 4096
                      + (b3 - 128) * 64 + (b4 - 128)) :: decodeUtf8Go f rest4
                else decodeUtf8Go f rest3
            else decodeUtf8Go f rest2
        else decodeUtf8Go f rest
    else decodeUtf8Go f rest

/-- Decode a byte sequence as UTF-8 with errors ignored. -/
def decodeUtf8Ignore (bs : List Nat) : List Char := decodeUtf8Go bs.length bs

/-- The accumulated text produced by the source's per-chunk decoding:
`buffer += chunk.decode("utf-8", errors="ignore")` for each chunk. -/
def perChunkDecode (chunks : List (List Nat)) : List Char :=
  (chunks.map decodeUtf8Ignore).flatten

/-- Split a text into the complete events before each `"\n\n"` separator
and the leftover buffer, as the loop `while "\n\n" in buffer: event,
buffer = buffer.split("\n\n", 1)` does. -/
def extractEv : List Char → List (List Char) × List Char
  | [] => ([], [])
  | [c] => ([], [c])
  | c1 :: c2 :: rest =>
    if c1 = '\n' ∧ c2 = '\n' then ([] :: (extractEv rest).1, (extractEv rest).2)
    else
      match extractEv (c2 :: rest) with
      | (e :: es, b) => ((c1 :: e) :: es, b)
      | ([], b) => ([], c1 :: b)

/-- The per-chunk loop of `stream_backend_response` at the text level: each
newly decoded chunk is appended to the persistent buffer and the complete
events are split off; returns all events in order and the final buffer. -/
def feedEvents : List (List Char) → List Char → List (List Char) × List Char
  | [], buf => ([], buf)
  | t :: ts, buf =>
    let r := extractEv (buf ++ t)
    let r2 := feedEvents ts r.2
    (r.1 ++ r2.1, r2.2)

/-! Model of the SSE event processing of `stream_backend_response`:
the JSON values produced by Python's `json.loads` are represented by the
`Json` type, and the stream processing is parametric in the parsing
function `parse` standing for `json.loads` (an external library routine);
`none` models a `json.JSONDecodeError`. -/

inductive Json where
  | null
  | bool (b : Bool)
  | num (n : Int)
  | str (s : List Char)
  | arr (xs : List Json)
  | obj (fields : List (List Char × Json))

/-- Python truthiness of a decoded JSON value. -/
def jsonTruthy : Json → Bool
  | .null => false
  | .bool b => b
  | .num n => n != 0
  | .str s => !s.isEmpty
  | .arr xs => !xs.isEmpty
  | .obj fs => !fs.isEmpty

/-- Python `dict.get(k)` on a decoded JSON object: `null` models the
`None` returned for a missing key. -/
def jsonGet (j : Json) (k : List Char) : Json :=
  match j with
  | .obj fields =>
    match fields.lookup k with
    | some v => v
    | none => .null
  | _ => .null

def choicesKey : List Char := "choices".toList

def deltaKey : List Char := "delta".toList

def contentKey : List Char := "content".toList

def dataTok : List Char := "data:".toList

def doneTok : List Char := "[DONE]".toList

/-- Outcome of one SSE line: ignored, stream-terminating `[DONE]`, or a
yielded fragment. -/
inductive LineAction where
  | skip
  | done
  | emit (piece : Json)

/-- Per-line handling inside an SSE event (`main.py`): lines without the
`data:` prefix are ignored; the payload is the rest of the line stripped;
empty payloads are skipped; a literal `[DONE]` terminates the whole
stream; payloads that fail to parse are logged and skipped; parsed
payloads yield `choices[0].delta.content` when that value is truthy, the
`or []` / `or` defaults of the source are applied, and any navigation
error from an unexpected shape (caught by the inner `except`) skips the
line. -/
def processPayload (parse : List Char → Option Json) (ds : List Char) : LineAction :=
  if ds = [] then .skip
  else if ds = doneTok then .done
  else
    match parse ds with
      | none => .skip
      | some obj =>
        match obj with
        | .obj _ =>
          let cv := jsonGet obj choicesKey
          let choices := if jsonTruthy cv then cv else Json.arr []
          match choices with
          | .arr [] => .skip
          | .arr (c0 :: _) =>
            match c0 with
            | .obj _ =>
              let dv := jsonGet c0 deltaKey
              let delta := if jsonTruthy dv then dv else Json.obj []
              match delta with
              | .obj _ =>
                let piece := jsonGet delta contentKey
                if jsonTruthy piece then .emit piece else .skip
              | _ => .skip
            | _ => .skip
          | _ => .skip
        | _ => .skip

/-- Per-line dispatch: lines without the `data:` prefix are ignored, and
the payload after the prefix is stripped and handled by
`processPayload`. -/
def processDataLine (parse : List Char → Option Json) (line : List Char) : LineAction :=
  if hasPrefixC dataTok line = false then .skip
  else processPayload parse (trimWs (line.drop dataTok.length))

/-- Python `str.splitlines()` restricted to the `\n`, `\r\n` and `\r`
terminators that can reach this loop. -/
def splitlinesC : List Char → List (List Char)
  | [] => []
  | '\r' :: '\n' :: rest => [] :: splitlinesC rest
  | '\n' :: rest => [] :: splitlinesC rest
  | '\r' :: rest => [] :: splitlinesC rest
  | c :: rest =>
    match splitlinesC rest with
    | [] => [[c]]
    | l :: ls => (c :: l) :: ls

/-- Process the lines of one event in order: fragments of lines before a
`[DONE]` are yielded, and the flag reports whether `[DONE]` was hit. -/
def processEventLines (parse : List Char → Option Json) :
    List (List Char) → List Json × Bool
  | [] => ([], false)
  | l :: ls =>
    match processDataLine parse l with
    | .skip => processEventLines parse ls
    | .done => ([], true)
    | .emit j =>
      let r := processEventLines parse ls
      (j :: r.1, r.2)

def processEvent (parse : List Char → Option Json) (e : List Char) : List Json × Bool :=
  processEventLines parse (splitlinesC e)

/-- Process the complete events split off from the buffer, stopping at a
`[DONE]`. -/
def processEventsList (parse : List Char → Option Json) :
    List (List Char) → List Json × Bool
  | [] => ([], false)
  | e :: es =>
    let r := processEvent parse e
    if r.2 then (r.1, true)
    else
      let r2 := processEventsList parse es
      (r.1 ++ r2.1, r2.2)

/-- One item of the chunked HTTP body iteration: a byte chunk, or a
transport-level exception raised by the iteration at that point. -/
inductive StreamItem where
  | chunk (bytes : List Nat)
  | err

/-- The chunk loop of `stream_backend_response`: empty chunks are skipped
(`if not chunk: continue`); each chunk is decoded with errors ignored and
appended to the persistent buffer; complete events are split off and
processed; `[DONE]` ends the stream; a transport exception is caught by
the surrounding `except`, ending the stream with no further fragments;
when the body ends, the leftover buffer is discarded. -/
def streamLoop (parse : List Char → Option Json) : List StreamItem → List Char → List Json
  | [], _ => []
  | .err :: _, _ => []
  | .chunk bs :: rest, buffer =>
    if bs = [] then streamLoop parse rest buffer
    else
      let buf2 := buffer ++ decodeUtf8Ignore bs
      let r := extractEv buf2
      let pr := processEventsList parse r.1
      if pr.2 then pr.1 else pr.1 ++ streamLoop parse rest r.2

/-- Model of `stream_backend_response` as the list of fragments it yields:
`none` for the response models a transport exception at request time, and
a non-200 status yields nothing. -/
def stream_backend_response (parse : List Char → Option Json)
    (resp : Option (Nat × List StreamItem)) : List Json :=
  match resp with
  | none => []
  | some (status, items) =>
    if status ≠ 200 then [] else streamLoop parse items []

/-- A decoded OpenAI-style delta object `\x7b"choices": [\x7b"delta":
\x7b"content": s\x7d\x7d]\x7d`. -/
def mkContentObj (s : List Char) : Json :=
  Json.obj [(choicesKey, Json.arr [Json.obj [(deltaKey,
    Json.obj [(contentKey, Json.str s)])]])]

/-- A concrete parser used to instantiate the parametric model. -/
def parseStub (ds : List Char) : Option Json :=
  if ds = "X".toList then some (mkContentObj "hi".toList) else none

/-- ASCII text as bytes. -/
def asciiBytes (s : List Char) : List Nat := s.map Char.toNat

/-! Model of `sanitize_llm_artifacts` from
`src/meno_telegram_bot/utils/telegram_format.py`: four global non-greedy
pair substitutions (`_replace_artifact_pairs`), eight sequential
`str.replace` calls, then a final `re.sub` deleting residual markers. -/

/-- `str.replace(pat, rep)`: replace the non-overlapping occurrences of
`pat` left to right (for the non-empty patterns used here). The fuel is
instantiated with the text length, which every step decreases. -/
def replaceAllGo (pat rep : List Char) : Nat → List Char → List Char
  | _, [] => []
  | 0, c :: rest => c :: rest
  | Nat.succ f, c :: rest =>
    if hasPrefixC pat (c :: rest) then rep ++ replaceAllGo pat rep f (rest.drop (pat.length - 1))
    else c :: replaceAllGo pat rep f rest

def replaceAllL (pat rep s : List Char) : List Char := replaceAllGo pat rep s.length s

/-- One pair pattern `opT..\s*(.*?)\s*..clT → wrap ++ group ++ wrap` of
`_replace_artifact_pairs`, applied globally: each leftmost occurrence of
the opening token is matched with the first following closing token, the
enclosed content is captured with surrounding whitespace stripped (the
greedy `\s*` plus lazy `(.*?)` of the pattern), and scanning continues
after the match; with no closing token left the remainder is unchanged. -/
def subPairGo (opT clT wrap : List Char) : Nat → List Char → List Char
  | 0, s => s
  | Nat.succ f, s =>
    match splitFirst opT s with
    | none => s
    | some (pre, rest) =>
      match splitFirst clT rest with
      | none => s
      | some (mid, rest2) =>
        pre ++ wrap ++ trimWs mid ++ wrap ++ subPairGo opT clT wrap f rest2

def subPairL (opT clT wrap s : List Char) : List Char := subPairGo opT clT wrap s.length s

def bopenTok : List Char := "BOPEN".toList

def bcloseTok : List Char := "BCLOSE".toList

def iopenTok : List Char := "IOPEN".toList

def icloseTok : List Char := "ICLOSE".toList

def atBopenTok : List Char := "@@BOPEN@@".toList

def atBcloseTok : List Char := "@@BCLOSE@@".toList

def atIopenTok : List Char := "@@IOPEN@@".toList

def atIcloseTok : List Char := "@@ICLOSE@@".toList

def star2 : List Char := "**".toList

def star1 : List Char := "*".toList

def atat : List Char := "@@".toList

def at1 : List Char := "@".toList

/-- Greedy trailing `@\x7b0,2\x7d` of the residual pattern. -/
def dropTrailAts (s : List Char) : List Char :=
  if hasPrefixC atat s then s.drop 2
  else if hasPrefixC at1 s then s.drop 1
  else s

/-- Token alternation `(?:BOPEN|BCLOSE|IOPEN|ICLOSE)` followed by the
trailing `@\x7b0,2\x7d`; returns the remainder after the match. -/
def tryTok (s : List Char) : Option (List Char) :=
  if hasPrefixC bopenTok s then some (dropTrailAts (s.drop 5))
  else if hasPrefixC bcloseTok s then some (dropTrailAts (s.drop 6))
  else if hasPrefixC iopenTok s then some (dropTrailAts (s.drop 5))
  else if hasPrefixC icloseTok s then some (dropTrailAts (s.drop 6))
  else none

/-- Try the residual pattern `@\x7b0,2\x7d(?:BOPEN|BCLOSE|IOPEN|ICLOSE)
@\x7b0,2\x7d` at the current position, with the greedy leading `@`s
backtracking from two to zero. -/
def matchResidualAt (s : List Char) : Option (List Char) :=
  match (if hasPrefixC atat s then tryTok (s.drop 2) else none) with
  | some r => some r
  | none =>
    match (if hasPrefixC at1 s then tryTok (s.drop 1) else none) with
    | some r => some r
    | none => tryTok s

/-- The final `re.sub(residual-pattern, "", sanitized)`. -/
def stripResidualGo : Nat → List Char → List Char
  | 0, s => s
  | Nat.succ _, [] => []
  | Nat.succ f, c :: rest =>
    match matchResidualAt (c :: rest) with
    | some r => stripResidualGo f r
    | none => c :: stripResidualGo f rest

def stripResidual (s : List Char) : List Char := stripResidualGo s.length s

/-- The four pair patterns of `_replace_artifact_pairs`, in source order
(innermost application first). -/
def pairChain (s : List Char) : List Char :=
  subPairL iopenTok icloseTok star1
    (subPairL atIopenTok atIcloseTok star1
      (subPairL bopenTok bcloseTok star2
        (subPairL atBopenTok atBcloseTok star2 s)))

/-- The eight `str.replace` calls of `sanitize_llm_artifacts`, in the
source's dictionary iteration order (innermost application first). -/
def replaceChain (t : List Char) : List Char :=
  replaceAllL icloseTok star1
    (replaceAllL iopenTok star1
      (replaceAllL atIcloseTok star1
        (replaceAllL atIopenTok star1
          (replaceAllL bcloseTok star2
            (replaceAllL bopenTok star2
              (replaceAllL atBcloseTok star2
                (replaceAllL atBopenTok star2 t)))))))

/-- Model of `sanitize_llm_artifacts`: empty input short-circuits; then the
four pair patterns, the eight single replacements, and the residual
strip. -/
def sanitize_llm_artifacts (s : List Char) : List Char :=
  if s = [] then [] else stripResidual (replaceChain (pairChain s))

/-- Absence of all four core artifact marker tokens. -/
def tokenFree (s : List Char) : Prop :=
  ¬ occursIn bopenTok s ∧ ¬ occursIn bcloseTok s
    ∧ ¬ occursIn iopenTok s ∧ ¬ occursIn icloseTok s

/-- Decidable occurrence check. -/
def occursB (pat s : List Char) : Bool := (splitFirst pat s).isSome

/-- Decidable check that a text is free of artifact marker tokens (the
`@@`-delimited forms contain the bare forms, so this covers all eight). -/
def tokenFreeB (s : List Char) : Bool :=
  !occursB bopenTok s && !occursB bcloseTok s && !occursB iopenTok s && !occursB icloseTok s

/-- Occurrence of any of the four core marker tokens. -/
def someTokOccurs (s : List Char) : Prop :=
  occursIn bopenTok s ∨ occursIn bcloseTok s ∨ occursIn iopenTok s ∨ occursIn icloseTok s

/-! Model of `convert_markdown_to_telegram` / `prepare_for_markdown_v2`
from `main.py`: headings become bold, `**..**` and `__..__` become bold
markers, single `*..*` and `_.._` become italic markers (with the
lookaround guards of the source's regexes), the text is escaped while
preserving the markers (`_escape_markdown_v2_preserving`), and the markers
are finally replaced by `*` and `_`. -/

def boldOpenTok : List Char := "@@B_OPEN@@".toList

def boldCloseTok : List Char := "@@B_CLOSE@@".toList

def italOpenTok : List Char := "@@I_OPEN@@".toList

def italCloseTok : List Char := "@@I_CLOSE@@".toList

def underscore2 : List Char := "__".toList

def underscore1 : List Char := "_".toList

/-- One line under `re.sub(r"^(#\x7b1,6\x7d)\s*(.+)$", heading_to_bold,
line, MULTILINE)`: a greedy run of up to six `#`, greedy whitespace, then
a non-empty remainder captured and stripped; with only whitespace after
the hashes the lazy backtracking still captures one (stripped-away)
whitespace character, and an all-hash line of two to six hashes backtracks
one hash into the content. -/
def headingLine (line : List Char) : List Char :=
  let n := (line.takeWhile (fun c => c == '#')).length
  if n = 0 then line
  else
    let rest := line.drop (min n 6)
    let w := rest.takeWhile isWs
    let cont := rest.dropWhile isWs
    if cont ≠ [] then boldOpenTok ++ trimWs cont ++ boldCloseTok
    else if w ≠ [] then boldOpenTok ++ boldCloseTok
    else if 2 ≤ n then boldOpenTok ++ [ '#' ] ++ boldCloseTok
    else line

/-- The MULTILINE heading substitution, applied line by line. -/
def headingSub (s : List Char) : List Char :=
  List.intercalate [ '\n' ] ((List.splitOn '\n' s).map headingLine)

/-- Global non-greedy `tok(.+?)tok` substitution (for `\*\*(.+?)\*\*`
and `__(.+?)__`): at each occurrence of the opening token the lazy group
takes the shortest non-empty newline-free stretch up to the next token;
without such a close the scan advances one character. -/
def lazyPairGo (tok openL closeL : List Char) : Nat → List Char → List Char
  | 0, s => s
  | Nat.succ _, [] => []
  | Nat.succ f, c :: rest =>
    if hasPrefixC tok (c :: rest) then
      match (c :: rest).drop tok.length with
      | [] => c :: lazyPairGo tok openL closeL f rest
      | b0 :: btail =>
        match splitFirst tok btail with
        | none => c :: lazyPairGo tok openL closeL f rest
        | some (p, after) =>
          if (b0 :: p).contains '\n' then c :: lazyPairGo tok openL closeL f rest
          else openL ++ (b0 :: p) ++ closeL ++ lazyPairGo tok openL closeL f after
    else c :: lazyPairGo tok openL closeL f rest

def lazyPairSub (tok openL closeL s : List Char) : List Char :=
  lazyPairGo tok openL closeL s.length s

/-- Scan for the lazy close of the single-marker italic pattern: the first
position holding the marker, not preceded by it (the previous content
character) and not followed by it. -/
def italicFindClose (mark : Char) (prev : Char) : List Char → Option (List Char × List Char)
  | [] => none
  | c :: cs =>
    if c = mark ∧ prev ≠ mark ∧ cs.head? ≠ some mark then some ([], cs)
    else
      match italicFindClose mark c cs with
      | some (cont, aft) => some (c :: cont, aft)
      | none => none

/-- Global substitution of the source's italic pattern
`(?<!m)m(?!m)(.+?)(?<!m)m(?!m)` for a marker `m`, tracking the previous
original character for the lookbehinds. -/
def italicGo (mark : Char) (openL closeL : List Char) :
    Nat → Option Char → List Char → List Char
  | 0, _, s => s
  | Nat.succ _, _, [] => []
  | Nat.succ f, prev, c :: rest =>
    if c = mark ∧ prev ≠ some mark ∧ rest.head? ≠ some mark then
      match rest with
      | [] => c :: italicGo mark openL closeL f (some c) []
      | b0 :: btail =>
        match italicFindClose mark b0 btail with
        | none => c :: italicGo mark openL closeL f (some c) rest
        | some (cont, aft) =>
          if (b0 :: cont).contains '\n' then c :: italicGo mark openL closeL f (some c) rest
          else openL ++ (b0 :: cont) ++ closeL ++ italicGo mark openL closeL f (some mark) aft
    else c :: italicGo mark openL closeL f (some c) rest

def italicSub (mark : Char) (openL closeL s : List Char) : List Char :=
  italicGo mark openL closeL s.length none s

/-- Model of `_escape_markdown_v2_preserving`: split on the four marker
tokens, keep them, and escape every reserved character of the other
parts. -/
def escPresGo : Nat → List Char → List Char
  | 0, s => s
  | Nat.succ _, [] => []
  | Nat.succ f, c :: rest =>
    if hasPrefixC boldOpenTok (c :: rest) then
      boldOpenTok ++ escPresGo f ((c :: rest).drop 10)
    else if hasPrefixC boldCloseTok (c :: rest) then
      boldCloseTok ++ escPresGo f ((c :: rest).drop 11)
    else if hasPrefixC italOpenTok (c :: rest) then
      italOpenTok ++ escPresGo f ((c :: rest).drop 10)
    else if hasPrefixC italCloseTok (c :: rest) then
      italCloseTok ++ escPresGo f ((c :: rest).drop 11)
    else escChar c ++ escPresGo f rest

def escPresL (s : List Char) : List Char := escPresGo s.length s

/-- Model of `convert_markdown_to_telegram`. -/
def convert_markdown_to_telegram (s : List Char) : List Char :=
  let s1 := headingSub s
  let s2 := lazyPairSub star2 boldOpenTok boldCloseTok s1
  let s3 := lazyPairSub underscore2 boldOpenTok boldCloseTok s2
  let s4 := italicSub '*' italOpenTok italCloseTok s3
  let s5 := italicSub '_' italOpenTok italCloseTok s4
  let s6 := escPresL s5
  replaceAllL italCloseTok underscore1
    (replaceAllL italOpenTok underscore1
      (replaceAllL boldCloseTok star1
        (replaceAllL boldOpenTok star1 s6)))

def prepare_for_markdown_v2 (s : List Char) : List Char :=
  convert_markdown_to_telegram s

def mdv2Mode : List Char := "MarkdownV2".toList

/-- The edit calls of `process_backend` for one rendered streaming
fragment: the prepared text is sent with parse mode MarkdownV2; if that
call raises, the retry sends the raw `visible_candidate` — with the same
parse mode — and a failure of the retry is logged and dropped. Returns
the `(text, parse mode)` of each call and whether the stream continues. -/
def streamEditAttempts (candidate : List Char) (firstEditFails : Bool) :
    List (List Char × List Char) × Bool :=
  if firstEditFails then
    ([(prepare_for_markdown_v2 candidate, mdv2Mode), (candidate, mdv2Mode)], true)
  else ([(prepare_for_markdown_v2 candidate, mdv2Mode)], true)

/-! General decomposition of an input to `strip_think_from_text`:
inter-marker segments alternating with `<think>…</think>` spans, followed
by a final part. `keptConcat` is the text left once every span is
removed. -/

/-- Alternation of plain segments `aᵢ` with spans `<think>bᵢ</think>`,
followed by a final part. -/
def spansConcat : List (List Char × List Char) → List Char → List Char
  | [], t => t
  | (a, b) :: rest, t =>
    a ++ (THINK_OPEN ++ (b ++ (THINK_CLOSE ++ spansConcat rest t)))

/-- The text kept after removing every span: the plain segments followed by
the final part. -/
def keptConcat : List (List Char × List Char) → List Char → List Char
  | [], t => t
  | (a, _) :: rest, t => a ++ keptConcat rest t

/-- A pattern with no nontrivial border: no proper non-empty prefix of
`pat` equals the suffix of `pat` of the same length. Both think markers
are borderless, which pins the leftmost occurrence of `pat` in
`x ++ pat ++ y` to position `x.length` whenever `pat` does not occur
inside `x`. -/
def NoBorder (pat : List Char) : Prop :=
  ∀ k, k < pat.length → 0 < k → pat.take k ≠ pat.drop (pat.length - k)

/-- A concrete two-span decomposition: segments `"a"` and `" x"` with span
contents `"b"` and `"y"`. -/
def psW : List (List Char × List Char) :=
  [("a".toList, "b".toList), (" x".toList, "y".toList)]

theorem hasPrefixC_append (p s : List Char) : hasPrefixC p (p ++ s) = true := by
  induction p with
  | nil => rfl
  | cons a ps ih => simp [hasPrefixC, ih]

theorem eq_append_of_hasPrefixC {p s : List Char} (h : hasPrefixC p s = true) :
    s = p ++ s.drop p.length := by
  induction p generalizing s with
  | nil => simp
  | cons a ps ih =>
    cases s with
    | nil => simp [hasPrefixC] at h
    | cons c cs =>
      simp only [hasPrefixC, Bool.and_eq_true, beq_iff_eq] at h
      obtain ⟨rfl, h2⟩ := h
      simpa using ih h2

theorem length_le_of_hasPrefixC {p s : List Char} (h : hasPrefixC p s = true) :
    p.length ≤ s.length := by
  have := eq_append_of_hasPrefixC h
  rw [this]
  simp

theorem hasPrefixC_extend {p s : List Char} (t : List Char) (h : hasPrefixC p s = true) :
    hasPrefixC p (s ++ t) = true := by
  induction p generalizing s with
  | nil => rfl
  | cons a ps ih =>
    cases s with
    | nil => simp [hasPrefixC] at h
    | cons c cs =>
      simp only [hasPrefixC, Bool.and_eq_true] at h ⊢
      exact ⟨h.1, ih h.2⟩

theorem drop_append_of_hasPrefixC {p s : List Char} (t : List Char)
    (h : hasPrefixC p s = true) :
    (s ++ t).drop p.length = s.drop p.length ++ t := by
  have hl := length_le_of_hasPrefixC h
  rw [List.drop_append_of_le_length hl]

theorem length_lt_of_hasPrefixC_extend {p : List Char} :
    ∀ {s t : List Char}, hasPrefixC p s = false → hasPrefixC p (s ++ t) = true →
      s.length < p.length := by
  induction p with
  | nil => intro s t h1 _; simp [hasPrefixC] at h1
  | cons a ps ih =>
    intro s t h1 h2
    cases s with
    | nil => simp
    | cons c cs =>
      simp only [List.cons_append, hasPrefixC, Bool.and_eq_true] at h2
      simp only [hasPrefixC, Bool.and_eq_false_iff] at h1
      rcases h1 with h1 | h1
      · rw [h1] at h2; simp at h2
      · have := ih h1 h2.2
        simpa using Nat.succ_lt_succ this

theorem splitFirst_eq {pat : List Char} :
    ∀ {s pre post : List Char}, splitFirst pat s = some (pre, post) →
      s = pre ++ pat ++ post := by
  intro s
  induction s with
  | nil =>
    intro pre post h
    simp only [splitFirst] at h
    split at h
    · next hp =>
      cases pat with
      | nil => simp_all
      | cons a ps => simp [hasPrefixC] at hp
    · cases h
  | cons c rest ih =>
    intro pre post h
    simp only [splitFirst] at h
    split at h
    · next hp =>
      cases h
      simpa using eq_append_of_hasPrefixC hp
    · next hp =>
      cases hsf : splitFirst pat rest with
      | none => rw [hsf] at h; cases h
      | some pr =>
        rw [hsf] at h
        cases pr with
        | mk pre' post' =>
          cases h
          have := ih hsf
          simp [this]

theorem occursIn_of_splitFirst {pat s pre post : List Char}
    (h : splitFirst pat s = some (pre, post)) : occursIn pat s :=
  ⟨pre, post, splitFirst_eq h⟩

theorem splitFirst_isSome_of_occursIn {pat s : List Char} (h : occursIn pat s) :
    (splitFirst pat s).isSome = true := by
  obtain ⟨x, y, rfl⟩ := h
  induction x with
  | nil =>
    simp only [List.nil_append]
    cases hs : pat ++ y with
    | nil =>
      have hp : pat = [] := by
        cases pat with
        | nil => rfl
        | cons a ps => simp at hs
      subst hp
      simp [splitFirst, hasPrefixC]
    | cons c rest =>
      rw [splitFirst]
      have : hasPrefixC pat (c :: rest) = true := by
        rw [← hs]; exact hasPrefixC_append pat y
      simp [this]
  | cons a x' ih =>
    simp only [List.cons_append]
    rw [splitFirst]
    split
    · simp
    · simp only [List.append_assoc] at ih ⊢
      cases hsf : splitFirst pat (x' ++ (pat ++ y)) with
      | none => rw [hsf] at ih; simp at ih
      | some pr => cases pr; simp

theorem splitFirst_eq_none_of_not_occurs {pat s : List Char} (h : ¬ occursIn pat s) :
    splitFirst pat s = none := by
  cases hsf : splitFirst pat s with
  | none => rfl
  | some pr =>
    cases pr with
    | mk pre post => exact absurd (occursIn_of_splitFirst hsf) h

theorem occurs_append_left {pat A : List Char} (B : List Char) (h : occursIn pat A) :
    occursIn pat (A ++ B) := by
  obtain ⟨x, y, rfl⟩ := h
  exact ⟨x, y ++ B, by simp⟩

theorem occurs_append_right {pat B : List Char} (A : List Char) (h : occursIn pat B) :
    occursIn pat (A ++ B) := by
  obtain ⟨x, y, rfl⟩ := h
  exact ⟨A ++ x, y, by simp⟩

theorem occurs_cons {pat rest : List Char} (c : Char) (h : occursIn pat rest) :
    occursIn pat (c :: rest) := by
  obtain ⟨x, y, rfl⟩ := h
  exact ⟨c :: x, y, by simp⟩

theorem occurs_drop {pat s : List Char} (k : ℕ) (h : occursIn pat (s.drop k)) :
    occursIn pat s := by
  obtain ⟨x, y, hxy⟩ := h
  refine ⟨s.take k ++ x, y, ?_⟩
  conv_lhs => rw [← List.take_append_drop k s]
  rw [hxy]
  simp

/-- An occurrence inside a concatenation either begins inside the left part,
forcing a shared character, or lies entirely in the right part. -/
theorem occurs_split_two {pat : List Char} :
    ∀ {B C : List Char}, occursIn pat (B ++ C) →
      (∃ b, b ∈ B ∧ b ∈ pat) ∨ occursIn pat C := by
  intro B
  induction B with
  | nil => intro C h; exact Or.inr (by simpa using h)
  | cons b B' ih =>
    intro C h
    obtain ⟨x, y, hxy⟩ := h
    cases x with
    | nil =>
      cases pat with
      | nil => exact Or.inr ⟨[], C, by simp⟩
      | cons p ps =>
        simp only [List.nil_append, List.cons_append] at hxy
        have hbp : b = p := by
          have := congrArg List.head? hxy
          simpa using this
        exact Or.inl ⟨b, by simp, by simp [hbp]⟩
    | cons a x' =>
      simp only [List.cons_append, List.cons.injEq] at hxy
      obtain ⟨rfl, htail⟩ := hxy
      rcases ih ⟨x', y, htail⟩ with ⟨bb, hb1, hb2⟩ | hC
      · exact Or.inl ⟨bb, by simp [hb1], hb2⟩
      · exact Or.inr hC

theorem splitFirst_none_of_head_notin {hd : Char} {pt : List Char} :
    ∀ {x : List Char}, hd ∉ x → splitFirst (hd :: pt) x = none := by
  intro x
  induction x with
  | nil => intro _; rfl
  | cons c cs ih =>
    intro hx
    have hne : hd ≠ c := by intro h; exact hx (by simp [h])
    have hcs : hd ∉ cs := by intro h; exact hx (by simp [h])
    rw [splitFirst]
    have hp : hasPrefixC (hd :: pt) (c :: cs) = false := by
      simp [hasPrefixC, hne]
    rw [hp]
    simp only [Bool.false_eq_true, if_false]
    rw [ih hcs]

theorem splitFirst_at_boundary {hd : Char} {pt : List Char} :
    ∀ {x : List Char} (y : List Char), hd ∉ x →
      splitFirst (hd :: pt) (x ++ (hd :: pt) ++ y) = some (x, y) := by
  intro x
  induction x with
  | nil =>
    intro y _
    simp only [List.nil_append, List.cons_append]
    rw [splitFirst]
    have hp : hasPrefixC (hd :: pt) (hd :: (pt ++ y)) = true := by
      have := hasPrefixC_append (hd :: pt) y
      simpa using this
    rw [hp]
    simp only [if_true]
    simp [List.drop_left]
  | cons a x' ih =>
    intro y hx
    have hne : hd ≠ a := by intro h; exact hx (by simp [h])
    have hx' : hd ∉ x' := by intro h; exact hx (by simp [h])
    simp only [List.cons_append]
    rw [splitFirst]
    have hp : hasPrefixC (hd :: pt) (a :: (x' ++ (hd :: pt) ++ y)) = false := by
      simp [hasPrefixC, hne]
    simp only [List.cons_append] at hp
    rw [hp]
    simp only [Bool.false_eq_true, if_false]
    have := ih y hx'
    simp only [List.cons_append, List.append_assoc] at this ⊢
    rw [this]

/-- C9. `escapeSpecialChars` (the utils `escape_markdown_v2`) maps the empty
input to the empty output and prefixes a backslash to every occurrence of
every character of the reserved MarkdownV2 set, leaving the surrounding text
to be escaped in the same character-by-character way. -/
theorem escape_markdown_v2_spec :
    escape_markdown_v2 [] = [] ∧
    ∀ pre c post, c ∈ escapeChars →
      escape_markdown_v2 (pre ++ c :: post) =
        (pre.map escChar).flatten ++ ('\\' :: c :: (post.map escChar).flatten) := by
  constructor
  · rfl
  · intro pre c post hc
    have hne : pre ++ c :: post ≠ [] := by simp
    rw [escape_markdown_v2, if_neg hne]
    rw [List.map_append, List.flatten_append]
    simp [escChar, hc]

/-- Witness for C9 at the concrete input `"a.b"`. -/
theorem escape_markdown_v2_spec_witness :
    ('.' ∈ escapeChars) ∧
    escape_markdown_v2 ("a".toList ++ '.' :: "b".toList) =
      ("a".toList.map escChar).flatten ++ ('\\' :: '.' :: ("b".toList.map escChar).flatten) :=
  ⟨by decide, escape_markdown_v2_spec.2 "a".toList '.' "b".toList (by decide)⟩

theorem removeThinkGo_of_none {s : List Char} (f : Nat)
    (h : splitFirst THINK_OPEN s = none) : removeThinkGo f s = s := by
  cases f with
  | zero => rfl
  | succ g => rw [removeThinkGo, h]

theorem splitFirst_open_none {x : List Char} (hx : '<' ∉ x) :
    splitFirst THINK_OPEN x = none := by
  have hop : THINK_OPEN = '<' :: "think>".toList := rfl
  rw [hop]
  exact splitFirst_none_of_head_notin hx

theorem splitFirst_close_none {x : List Char} (hx : '<' ∉ x) :
    splitFirst THINK_CLOSE x = none := by
  have hcl : THINK_CLOSE = '<' :: "/think>".toList := rfl
  rw [hcl]
  exact splitFirst_none_of_head_notin hx

theorem splitFirst_open_boundary {x : List Char} (y : List Char) (hx : '<' ∉ x) :
    splitFirst THINK_OPEN (x ++ THINK_OPEN ++ y) = some (x, y) := by
  have hop : THINK_OPEN = '<' :: "think>".toList := rfl
  rw [hop]
  exact splitFirst_at_boundary y hx

theorem splitFirst_close_boundary {x : List Char} (y : List Char) (hx : '<' ∉ x) :
    splitFirst THINK_CLOSE (x ++ THINK_CLOSE ++ y) = some (x, y) := by
  have hcl : THINK_CLOSE = '<' :: "/think>".toList := rfl
  rw [hcl]
  exact splitFirst_at_boundary y hx

theorem removeThinkGo_step (f : Nat) {s pre rest mid rest2 : List Char}
    (h1 : splitFirst THINK_OPEN s = some (pre, rest))
    (h2 : splitFirst THINK_CLOSE rest = some (mid, rest2)) :
    removeThinkGo (f + 1) s = pre ++ removeThinkGo f rest2 := by
  simp only [removeThinkGo, h1, h2]

theorem removeThinkGo_stuck (f : Nat) {s pre rest : List Char}
    (h1 : splitFirst THINK_OPEN s = some (pre, rest))
    (h2 : splitFirst THINK_CLOSE rest = none) :
    removeThinkGo (f + 1) s = s := by
  simp only [removeThinkGo, h1, h2]

theorem strip_think_of_found_none {s pre rest : List Char}
    (h : splitFirst THINK_OPEN s = some (pre, rest))
    (h2 : splitFirst THINK_OPEN (removeThinkGo s.length s) = none) :
    strip_think_from_text s = trimWs (removeThinkGo s.length s) := by
  simp only [strip_think_from_text, h, h2]

theorem strip_think_of_found_trunc {s pre rest p q : List Char}
    (h : splitFirst THINK_OPEN s = some (pre, rest))
    (h2 : splitFirst THINK_OPEN (removeThinkGo s.length s) = some (p, q)) :
    strip_think_from_text s = trimWs p := by
  simp only [strip_think_from_text, h, h2]

theorem not_occurs_of_splitFirst_none {pat s : List Char}
    (h : splitFirst pat s = none) : ¬ occursIn pat s := by
  intro ho
  have hs := splitFirst_isSome_of_occursIn ho
  rw [h] at hs
  simp at hs

theorem hasPrefixC_of_append_le {q : List Char} :
    ∀ {A B : List Char}, hasPrefixC q (A ++ B) = true → q.length ≤ A.length →
      hasPrefixC q A = true := by
  induction q with
  | nil => intro A B _ _; rfl
  | cons qh qt ih =>
    intro A B h hl
    cases A with
    | nil => simp only [List.length_cons, List.length_nil] at hl; omega
    | cons a A' =>
      simp only [List.cons_append, hasPrefixC, Bool.and_eq_true] at h ⊢
      refine ⟨h.1, ih h.2 ?_⟩
      simp only [List.length_cons] at hl
      omega

theorem hasPrefixC_split_long :
    ∀ (x : List Char) {pat : List Char} (z : List Char),
      hasPrefixC pat (x ++ z) = true → x.length ≤ pat.length →
      pat = x ++ pat.drop x.length ∧ hasPrefixC (pat.drop x.length) z = true := by
  intro x
  induction x with
  | nil =>
    intro pat z h _
    exact ⟨by simp, by simpa using h⟩
  | cons c x' ih =>
    intro pat z h hl
    cases pat with
    | nil => simp only [List.length_cons, List.length_nil] at hl; omega
    | cons p pt =>
      simp only [List.cons_append, hasPrefixC, Bool.and_eq_true, beq_iff_eq] at h
      obtain ⟨rfl, h2⟩ := h
      have hl' : x'.length ≤ pt.length := by
        simp only [List.length_cons] at hl; omega
      obtain ⟨he, hp⟩ := ih z h2 hl'
      constructor
      · show p :: pt = (p :: x') ++ (p :: pt).drop (p :: x').length
        simp only [List.length_cons, List.drop_succ_cons, List.cons_append]
        exact congrArg (List.cons p) he
      · show hasPrefixC ((p :: pt).drop (p :: x').length) z = true
        simp only [List.length_cons, List.drop_succ_cons]
        exact hp

theorem eq_take_of_hasPrefixC {r pat : List Char} (h : hasPrefixC r pat = true) :
    r = pat.take r.length := by
  have h2 := eq_append_of_hasPrefixC h
  rw [h2, List.take_left]

theorem splitFirst_boundary_of_noBorder {pat : List Char} (hnb : NoBorder pat)
    (hne : pat ≠ []) :
    ∀ {x : List Char} (y : List Char), ¬ occursIn pat x →
      splitFirst pat (x ++ (pat ++ y)) = some (x, y) := by
  intro x
  induction x with
  | nil =>
    intro y _
    cases pat with
    | nil => exact absurd rfl hne
    | cons p pt =>
      simp only [List.nil_append, List.cons_append]
      rw [splitFirst]
      have hp : hasPrefixC (p :: pt) (p :: (pt ++ y)) = true := by
        have := hasPrefixC_append (p :: pt) y
        simpa using this
      rw [hp]
      simp only [if_true]
      simp [List.drop_left]
  | cons c x' ih =>
    intro y hx
    have hx' : ¬ occursIn pat x' := fun ho => hx (occurs_cons c ho)
    simp only [List.cons_append]
    rw [splitFirst]
    have hp : hasPrefixC pat (c :: (x' ++ (pat ++ y))) = false := by
      cases hpc : hasPrefixC pat (c :: (x' ++ (pat ++ y))) with
      | false => rfl
      | true =>
        exfalso
        have hpc' : hasPrefixC pat ((c :: x') ++ (pat ++ y)) = true := by
          simpa using hpc
        by_cases hlen : pat.length ≤ (c :: x').length
        · have hpx := hasPrefixC_of_append_le hpc' hlen
          exact hx ⟨[], (c :: x').drop pat.length, by
            simpa using eq_append_of_hasPrefixC hpx⟩
        · push_neg at hlen
          obtain ⟨he, hp2⟩ := hasPrefixC_split_long (c :: x') (pat ++ y) hpc'
            (Nat.le_of_lt hlen)
          have hrlen : (pat.drop (c :: x').length).length
              = pat.length - (c :: x').length := by
            simp [List.length_drop]
          have hrpref : hasPrefixC (pat.drop (c :: x').length) pat = true := by
            apply hasPrefixC_of_append_le hp2
            rw [hrlen]
            omega
          have htake := eq_take_of_hasPrefixC hrpref
          rw [hrlen] at htake
          have hdropeq : (c :: x').length
              = pat.length - (pat.length - (c :: x').length) := by
            simp only [List.length_cons] at hlen ⊢
            omega
          refine hnb (pat.length - (c :: x').length) ?_ ?_ ?_
          · simp only [List.length_cons] at hlen ⊢
            omega
          · simp only [List.length_cons] at hlen ⊢
            omega
          · rw [← htake, ← hdropeq]
    rw [hp]
    simp only [Bool.false_eq_true, if_false]
    have := ih y hx'
    simp only [List.cons_append, List.append_assoc] at this ⊢
    rw [this]

theorem noBorder_think_open : NoBorder THINK_OPEN := by
  unfold NoBorder
  decide

theorem noBorder_think_close : NoBorder THINK_CLOSE := by
  unfold NoBorder
  decide

theorem splitFirst_open_at {x : List Char} (y : List Char)
    (hx : ¬ occursIn THINK_OPEN x) :
    splitFirst THINK_OPEN (x ++ (THINK_OPEN ++ y)) = some (x, y) :=
  splitFirst_boundary_of_noBorder noBorder_think_open (by decide) y hx

theorem splitFirst_close_at {x : List Char} (y : List Char)
    (hx : ¬ occursIn THINK_CLOSE x) :
    splitFirst THINK_CLOSE (x ++ (THINK_CLOSE ++ y)) = some (x, y) :=
  splitFirst_boundary_of_noBorder noBorder_think_close (by decide) y hx

theorem keptConcat_append :
    ∀ (ps : List (List Char × List Char)) (x y : List Char),
      keptConcat ps (x ++ y) = keptConcat ps x ++ y := by
  intro ps
  induction ps with
  | nil => intro x y; rfl
  | cons p rest ih =>
    intro x y
    cases p with
    | mk a b => simp [keptConcat, ih, List.append_assoc]

theorem occurs_keptConcat_tail {q : List Char} :
    ∀ (ps : List (List Char × List Char)) (t : List Char),
      occursIn q t → occursIn q (keptConcat ps t) := by
  intro ps
  induction ps with
  | nil => intro t h; exact h
  | cons p rest ih =>
    intro t h
    cases p with
    | mk a b =>
      show occursIn q (a ++ keptConcat rest t)
      exact occurs_append_right a (ih t h)

theorem occurs_keptConcat_mem {q : List Char} :
    ∀ (ps : List (List Char × List Char)) (t : List Char)
      (p : List Char × List Char),
      p ∈ ps → occursIn q p.1 → occursIn q (keptConcat ps t) := by
  intro ps
  induction ps with
  | nil => intro t p hp _; exact absurd hp (List.not_mem_nil p)
  | cons hd rest ih =>
    intro t p hp hq
    cases hd with
    | mk a b =>
      show occursIn q (a ++ keptConcat rest t)
      rcases List.mem_cons.mp hp with rfl | hp'
      · exact occurs_append_left _ hq
      · exact occurs_append_right a (ih t p hp' hq)

theorem occurs_spansConcat_tail {q : List Char} :
    ∀ (ps : List (List Char × List Char)) (t : List Char),
      occursIn q t → occursIn q (spansConcat ps t) := by
  intro ps
  induction ps with
  | nil => intro t h; exact h
  | cons p rest ih =>
    intro t h
    cases p with
    | mk a b =>
      show occursIn q
        (a ++ (THINK_OPEN ++ (b ++ (THINK_CLOSE ++ spansConcat rest t))))
      exact occurs_append_right a (occurs_append_right THINK_OPEN
        (occurs_append_right b (occurs_append_right THINK_CLOSE (ih t h))))

theorem spansConcat_length_ge :
    ∀ (ps : List (List Char × List Char)) (t : List Char),
      ps.length + t.length ≤ (spansConcat ps t).length := by
  intro ps
  induction ps with
  | nil => intro t; simp [spansConcat]
  | cons p rest ih =>
    intro t
    cases p with
    | mk a b =>
      have hih := ih t
      have h7 : THINK_OPEN.length = 7 := by decide
      have h8 : THINK_CLOSE.length = 8 := by decide
      simp only [spansConcat, List.length_cons, List.length_append, h7, h8]
      omega

theorem removeThink_spans_closed :
    ∀ (ps : List (List Char × List Char)) (f : Nat) (t : List Char),
      (∀ p ∈ ps, ¬ occursIn THINK_CLOSE p.2) →
      (∀ p ∈ ps, ¬ occursIn THINK_OPEN p.1) →
      ¬ occursIn THINK_OPEN t →
      ps.length ≤ f →
      removeThinkGo f (spansConcat ps t) = keptConcat ps t := by
  intro ps
  induction ps with
  | nil =>
    intro f t _ _ ht _
    exact removeThinkGo_of_none f (splitFirst_eq_none_of_not_occurs ht)
  | cons p rest ih =>
    intro f t hcl hop ht hf
    cases p with
    | mk a b =>
      cases f with
      | zero => simp only [List.length_cons] at hf; omega
      | succ g =>
        have ha : ¬ occursIn THINK_OPEN a := hop (a, b) (List.mem_cons_self _ _)
        have hb : ¬ occursIn THINK_CLOSE b := hcl (a, b) (List.mem_cons_self _ _)
        have h1 : splitFirst THINK_OPEN (spansConcat ((a, b) :: rest) t)
            = some (a, b ++ (THINK_CLOSE ++ spansConcat rest t)) := by
          show splitFirst THINK_OPEN
              (a ++ (THINK_OPEN ++ (b ++ (THINK_CLOSE ++ spansConcat rest t))))
            = some (a, b ++ (THINK_CLOSE ++ spansConcat rest t))
          exact splitFirst_open_at _ ha
        have h2 : splitFirst THINK_CLOSE (b ++ (THINK_CLOSE ++ spansConcat rest t))
            = some (b, spansConcat rest t) := splitFirst_close_at _ hb
        have hrest := ih g t (fun p hp => hcl p (List.mem_cons_of_mem _ hp))
          (fun p hp => hop p (List.mem_cons_of_mem _ hp)) ht
          (by simp only [List.length_cons] at hf; omega)
        show removeThinkGo (g + 1) (spansConcat ((a, b) :: rest) t)
          = a ++ keptConcat rest t
        rw [removeThinkGo_step g h1 h2, hrest]

theorem removeThink_spans_open :
    ∀ (ps : List (List Char × List Char)) (f : Nat) (u v : List Char),
      (∀ p ∈ ps, ¬ occursIn THINK_CLOSE p.2) →
      (∀ p ∈ ps, ¬ occursIn THINK_OPEN p.1) →
      ¬ occursIn THINK_OPEN u →
      ¬ occursIn THINK_CLOSE v →
      ps.length + 1 ≤ f →
      removeThinkGo f (spansConcat ps (u ++ (THINK_OPEN ++ v)))
        = keptConcat ps (u ++ (THINK_OPEN ++ v)) := by
  intro ps
  induction ps with
  | nil =>
    intro f u v _ _ hu hv hf
    cases f with
    | zero => exact absurd hf (by decide)
    | succ g =>
      have h1 : splitFirst THINK_OPEN (spansConcat [] (u ++ (THINK_OPEN ++ v)))
          = some (u, v) := splitFirst_open_at v hu
      exact removeThinkGo_stuck g h1 (splitFirst_eq_none_of_not_occurs hv)
  | cons p rest ih =>
    intro f u v hcl hop hu hv hf
    cases p with
    | mk a b =>
      cases f with
      | zero => simp only [List.length_cons] at hf; omega
      | succ g =>
        have ha : ¬ occursIn THINK_OPEN a := hop (a, b) (List.mem_cons_self _ _)
        have hb : ¬ occursIn THINK_CLOSE b := hcl (a, b) (List.mem_cons_self _ _)
        have h1 : splitFirst THINK_OPEN
              (spansConcat ((a, b) :: rest) (u ++ (THINK_OPEN ++ v)))
            = some (a, b ++ (THINK_CLOSE
                ++ spansConcat rest (u ++ (THINK_OPEN ++ v)))) := by
          show splitFirst THINK_OPEN
              (a ++ (THINK_OPEN ++ (b ++ (THINK_CLOSE
                ++ spansConcat rest (u ++ (THINK_OPEN ++ v))))))
            = some (a, b ++ (THINK_CLOSE
                ++ spansConcat rest (u ++ (THINK_OPEN ++ v))))
          exact splitFirst_open_at _ ha
        have h2 : splitFirst THINK_CLOSE
              (b ++ (THINK_CLOSE ++ spansConcat rest (u ++ (THINK_OPEN ++ v))))
            = some (b, spansConcat rest (u ++ (THINK_OPEN ++ v))) :=
          splitFirst_close_at _ hb
        have hrest := ih g u v (fun p hp => hcl p (List.mem_cons_of_mem _ hp))
          (fun p hp => hop p (List.mem_cons_of_mem _ hp)) hu hv
          (by simp only [List.length_cons] at hf; omega)
        show removeThinkGo (g + 1)
            (spansConcat ((a, b) :: rest) (u ++ (THINK_OPEN ++ v)))
          = a ++ keptConcat rest (u ++ (THINK_OPEN ++ v))
        rw [removeThinkGo_step g h1 h2, hrest]

/-- C3 (amended). Decompose the input into inter-marker segments `aᵢ`
alternating with spans `<think>bᵢ</think>` — each `bᵢ` free of the close
marker, so each span is a leftmost minimal match — via `spansConcat`.
When at least one span is present and the kept text `keptConcat ps t`
(the segments followed by the final part) is free of the open marker,
every span is removed and the kept text is trimmed. When the final part
instead ends in an unterminated `<think>v` (no close marker in `v`),
removal of the closed spans composes with truncation at the dangling open
marker, yielding the kept prefix trimmed. An input without any occurrence
of `<think>` — even one containing other `<` characters — is returned
unchanged, not trimmed. -/
theorem strip_think_spec (ps : List (List Char × List Char)) (t u v d : List Char) :
    (ps ≠ [] →
      (∀ p ∈ ps, ¬ occursIn THINK_CLOSE p.2) →
      ¬ occursIn THINK_OPEN (keptConcat ps t) →
      strip_think_from_text (spansConcat ps t) = trimWs (keptConcat ps t))
    ∧ ((∀ p ∈ ps, ¬ occursIn THINK_CLOSE p.2) →
      ¬ occursIn THINK_CLOSE v →
      ¬ occursIn THINK_OPEN (keptConcat ps u) →
      strip_think_from_text (spansConcat ps (u ++ (THINK_OPEN ++ v)))
        = trimWs (keptConcat ps u))
    ∧ (¬ occursIn THINK_OPEN d → strip_think_from_text d = d) := by
  refine ⟨?_, ?_, ?_⟩
  · intro hne hcl hkept
    have hop : ∀ p ∈ ps, ¬ occursIn THINK_OPEN p.1 :=
      fun p hp ho => hkept (occurs_keptConcat_mem ps t p hp ho)
    have ht : ¬ occursIn THINK_OPEN t :=
      fun ho => hkept (occurs_keptConcat_tail ps t ho)
    cases ps with
    | nil => exact absurd rfl hne
    | cons p rest =>
      cases p with
      | mk a b =>
        have ha : ¬ occursIn THINK_OPEN a := hop (a, b) (List.mem_cons_self _ _)
        set s := spansConcat ((a, b) :: rest) t with hs
        have hso : splitFirst THINK_OPEN s
            = some (a, b ++ (THINK_CLOSE ++ spansConcat rest t)) := by
          rw [hs]
          show splitFirst THINK_OPEN
              (a ++ (THINK_OPEN ++ (b ++ (THINK_CLOSE ++ spansConcat rest t))))
            = some (a, b ++ (THINK_CLOSE ++ spansConcat rest t))
          exact splitFirst_open_at _ ha
        have hclean : removeThinkGo s.length s = keptConcat ((a, b) :: rest) t := by
          rw [hs]
          exact removeThink_spans_closed ((a, b) :: rest)
            (spansConcat ((a, b) :: rest) t).length t hcl hop ht
            (by have := spansConcat_length_ge ((a, b) :: rest) t; omega)
        rw [strip_think_of_found_none hso
          (by rw [hclean]; exact splitFirst_eq_none_of_not_occurs hkept), hclean]
  · intro hcl hv hkept
    have hop : ∀ p ∈ ps, ¬ occursIn THINK_OPEN p.1 :=
      fun p hp ho => hkept (occurs_keptConcat_mem ps u p hp ho)
    have hu : ¬ occursIn THINK_OPEN u :=
      fun ho => hkept (occurs_keptConcat_tail ps u ho)
    set s := spansConcat ps (u ++ (THINK_OPEN ++ v)) with hs
    have hocc : occursIn THINK_OPEN s := by
      rw [hs]
      exact occurs_spansConcat_tail ps (u ++ (THINK_OPEN ++ v))
        ⟨u, v, by simp⟩
    have hsome : (splitFirst THINK_OPEN s).isSome = true :=
      splitFirst_isSome_of_occursIn hocc
    have hclean : removeThinkGo s.length s
        = keptConcat ps (u ++ (THINK_OPEN ++ v)) := by
      rw [hs]
      exact removeThink_spans_open ps
        (spansConcat ps (u ++ (THINK_OPEN ++ v))).length u v hcl hop hu hv
        (by
          have hge := spansConcat_length_ge ps (u ++ (THINK_OPEN ++ v))
          have h7 : THINK_OPEN.length = 7 := by decide
          simp only [List.length_append, h7] at hge
          omega)
    have hsplit2 : splitFirst THINK_OPEN (removeThinkGo s.length s)
        = some (keptConcat ps u, v) := by
      rw [hclean, keptConcat_append ps u (THINK_OPEN ++ v)]
      exact splitFirst_open_at v hkept
    obtain ⟨pr, hpr⟩ := Option.isSome_iff_exists.mp hsome
    cases pr with
    | mk pre rest =>
      rw [strip_think_of_found_trunc hpr hsplit2]
  · intro hd
    rw [strip_think_from_text, splitFirst_eq_none_of_not_occurs hd]

/-- Witness for C3: two closed spans removed around the kept text `"a xc"`
(first conjunct); the same two spans followed by an unterminated `<think>w`
truncating to the kept prefix `"a xu"` (second conjunct); and the
marker-free input `"1 < 2"` — containing a bare angle bracket — returned
unchanged (third conjunct). -/
theorem strip_think_spec_witness :
    (psW ≠ []
      ∧ (∀ p ∈ psW, ¬ occursIn THINK_CLOSE p.2)
      ∧ ¬ occursIn THINK_OPEN (keptConcat psW "c".toList)
      ∧ ¬ occursIn THINK_CLOSE "w".toList
      ∧ ¬ occursIn THINK_OPEN (keptConcat psW "u".toList)
      ∧ ¬ occursIn THINK_OPEN "1 < 2".toList) ∧
    (strip_think_from_text (spansConcat psW "c".toList)
        = trimWs (keptConcat psW "c".toList)
      ∧ strip_think_from_text (spansConcat psW ("u".toList ++ (THINK_OPEN ++ "w".toList)))
          = trimWs (keptConcat psW "u".toList)
      ∧ strip_think_from_text "1 < 2".toList = "1 < 2".toList) := by
  have hcl : ∀ p ∈ psW, ¬ occursIn THINK_CLOSE p.2 := by
    intro p hp
    rcases List.mem_cons.mp hp with rfl | hp'
    · exact not_occurs_of_splitFirst_none (by decide)
    · rcases List.mem_cons.mp hp' with rfl | hp''
      · exact not_occurs_of_splitFirst_none (by decide)
      · exact absurd hp'' (List.not_mem_nil p)
  have h3 : ¬ occursIn THINK_OPEN (keptConcat psW "c".toList) :=
    not_occurs_of_splitFirst_none (by decide)
  have h4 : ¬ occursIn THINK_CLOSE "w".toList :=
    not_occurs_of_splitFirst_none (by decide)
  have h5 : ¬ occursIn THINK_OPEN (keptConcat psW "u".toList) :=
    not_occurs_of_splitFirst_none (by decide)
  have h6 : ¬ occursIn THINK_OPEN "1 < 2".toList :=
    not_occurs_of_splitFirst_none (by decide)
  have happ := strip_think_spec psW "c".toList "u".toList "w".toList "1 < 2".toList
  exact ⟨⟨by decide, hcl, h3, h4, h5, h6⟩,
    happ.1 (by decide) hcl h3, happ.2.1 hcl h4 h5, happ.2.2 h6⟩

/-- C3 (counterexample). The claim asserts that every input has surrounding
whitespace trimmed, but an input without any `<think>` marker is returned
unchanged: `" a "` keeps its spaces instead of becoming `"a"`. -/
theorem strip_think_trim_cex :
    strip_think_from_text " a ".toList = " a ".toList ∧
    trimWs " a ".toList = "a".toList ∧
    " a ".toList ≠ "a".toList := by
  refine ⟨by decide, by decide, by decide⟩

/-- C1 (counterexample). Starting from an empty conversation, `25`
consecutive completed runs whose answers strip to empty leave a stored
history of `25` user turns, exceeding the claimed bound
`2 * MAX_HISTORY_MESSAGES = 24`: the trim only runs when an assistant turn
is appended. -/
theorem history_bound_cex :
    ((thinkOnlyStep)^[2 * MAX_HISTORY_MESSAGES + 1] []).length = 2 * MAX_HISTORY_MESSAGES + 1 ∧
    2 * MAX_HISTORY_MESSAGES < 2 * MAX_HISTORY_MESSAGES + 1 := by
  exact ⟨by decide, by decide⟩

/-- C1 (amended). Whenever a run produces a non-empty final answer (so an
assistant turn is appended), the stored history afterwards has at most
`2 * MAX_HISTORY_MESSAGES` turns and is a suffix of the appended sequence
(trimming removes the oldest turns); and in every run the request window is
the `history[-MAX_HISTORY_MESSAGES:]` slice of the history with the new
user turn: a suffix holding the most recent `min MAX_HISTORY_MESSAGES
(length + 1)` turns in original order. -/
theorem history_append_trim_window (history : List Turn)
    (userText raw nonStreamReply : List Char)
    (hfa : finalAnswerOf raw nonStreamReply ≠ []) :
    ((process_backend_history history userText raw nonStreamReply).2).length
      ≤ 2 * MAX_HISTORY_MESSAGES
    ∧ (∃ dropped, (history ++ [⟨userRole, userText⟩]
          ++ [⟨assistantRole, finalAnswerOf raw nonStreamReply⟩])
        = dropped ++ (process_backend_history history userText raw nonStreamReply).2)
    ∧ (process_backend_history history userText raw nonStreamReply).1
        = pyLastSlice MAX_HISTORY_MESSAGES (history ++ [⟨userRole, userText⟩])
    ∧ (∃ pre, history ++ [⟨userRole, userText⟩]
        = pre ++ (process_backend_history history userText raw nonStreamReply).1)
    ∧ ((process_backend_history history userText raw nonStreamReply).1).length
        = min MAX_HISTORY_MESSAGES (history.length + 1) := by
  simp only [process_backend_history, if_pos hfa]
  refine ⟨?_, ?_, ?_, ?_, ?_⟩
  · split
    · next hlen =>
      simp only [pyLastSlice, List.length_drop]
      omega
    · next hlen =>
      omega
  · split
    · exact ⟨_, (List.take_append_drop _ _).symm⟩
    · exact ⟨[], by simp⟩
  · trivial
  · exact ⟨_, (List.take_append_drop _ _).symm⟩
  · simp only [pyLastSlice, List.length_drop, List.length_append, List.length_cons,
      List.length_nil]
    omega

/-- Witness for C1 at a concrete run appending to a history of one turn. -/
theorem history_append_trim_window_witness :
    (finalAnswerOf "ok".toList [] ≠ []) ∧
    (((process_backend_history [⟨userRole, "q".toList⟩] "w".toList "ok".toList []).2).length
      ≤ 2 * MAX_HISTORY_MESSAGES
    ∧ (∃ dropped, ([⟨userRole, "q".toList⟩] ++ [⟨userRole, "w".toList⟩]
          ++ [⟨assistantRole, finalAnswerOf "ok".toList []⟩])
        = dropped ++ (process_backend_history [⟨userRole, "q".toList⟩]
            "w".toList "ok".toList []).2)
    ∧ (process_backend_history [⟨userRole, "q".toList⟩] "w".toList "ok".toList []).1
        = pyLastSlice MAX_HISTORY_MESSAGES ([⟨userRole, "q".toList⟩] ++ [⟨userRole, "w".toList⟩])
    ∧ (∃ pre, [⟨userRole, "q".toList⟩] ++ [⟨userRole, "w".toList⟩]
        = pre ++ (process_backend_history [⟨userRole, "q".toList⟩]
            "w".toList "ok".toList []).1)
    ∧ ((process_backend_history [⟨userRole, "q".toList⟩] "w".toList "ok".toList []).1).length
        = min MAX_HISTORY_MESSAGES (([(⟨userRole, "q".toList⟩ : Turn)]).length + 1)) :=
  ⟨by decide, history_append_trim_window [⟨userRole, "q".toList⟩]
    "w".toList "ok".toList [] (by decide)⟩

/-- C2 (counterexample). If posting the placeholder message raises (or the
handler is cancelled at that await), the handler exits on a path that never
reaches the `try`/`finally`, and the user stays in the pending set with no
active run: this exit path does not remove the identifier. -/
theorem pending_release_cex :
    (message_handler ∅ 7 false).2 = HandlerExit.crashedBeforeTasks ∧
    7 ∈ (message_handler ∅ 7 false).1 := by
  exact ⟨by decide, by decide⟩

/-- C2 (amended). A second message from a user with an in-flight request is
rejected with the please-wait notice and changes no state; and on every
exit path reached once the placeholder message was posted (success, error
or cancellation of the pipeline), the user's identifier is removed again,
restoring the pending set. -/
theorem pending_admission_release (pending : Finset Nat) (userId : Nat) :
    (userId ∈ pending → ∀ ok, message_handler pending userId ok = (pending, .rejected)) ∧
    (userId ∉ pending →
      (message_handler pending userId true).1 = pending
      ∧ userId ∉ (message_handler pending userId true).1
      ∧ (message_handler pending userId true).2 = .completed) := by
  constructor
  · intro hmem ok
    simp [message_handler, hmem]
  · intro hmem
    simp only [message_handler, if_neg hmem, if_pos rfl]
    refine ⟨?_, ?_, rfl⟩
    · simp [Finset.erase_insert hmem]
    · simp [Finset.erase_insert hmem, hmem]

/-- Witness for C2: user `7` not pending, placeholder posted, run completes,
and the pending set is restored. -/
theorem pending_admission_release_witness :
    (7 ∉ ({3} : Finset Nat)) ∧
    ((message_handler {3} 7 true).1 = {3}
      ∧ 7 ∉ (message_handler {3} 7 true).1
      ∧ (message_handler {3} 7 true).2 = .completed) :=
  ⟨by decide, (pending_admission_release {3} 7).2 (by decide)⟩

/-- C7 (counterexample). The stored per-conversation timestamp is the last
edit **attempt**, not the last successful edit: after a failed edit call at
time `1`, the source has stored `1` although no edit ever succeeded, and a
fragment at time `3/2` triggers no second call, whereas a `RateWindow`
holding the last successful edit timestamp would allow a call at `3/2`. -/
theorem rate_window_success_cex :
    (throttleRun 0 none [(1, false), (3/2, true)]).1 = [1]
    ∧ (throttleRun 0 none [(1, false), (3/2, true)]).2.1 = 1
    ∧ (throttleRun 0 none [(1, false), (3/2, true)]).2.2 = none
    ∧ specThrottleRun 0 [(1, false), (3/2, true)] = [1, 3/2] := by
  refine ⟨?_, ?_, ?_, ?_⟩ <;>
    norm_num [throttleRun, specThrottleRun, MIN_EDIT_INTERVAL]

/-- Every edit call happens at least `MIN_EDIT_INTERVAL` after the stored
timestamp, and successive edit calls are at least that far apart. -/
theorem throttleRun_chain :
    ∀ (arrivals : List (ℚ × Bool)) (last : ℚ) (lastSuccess : Option ℚ),
      List.Chain (fun a b => a + MIN_EDIT_INTERVAL ≤ b) last
        ((throttleRun last lastSuccess arrivals).1) := by
  intro arrivals
  induction arrivals with
  | nil => intro last lastSuccess; exact List.Chain.nil
  | cons a rest ih =>
    intro last lastSuccess
    cases a with
    | mk t ok =>
      rw [throttleRun]
      split
      · next hcond => exact List.Chain.cons hcond (ih t _)
      · exact ih last lastSuccess

/-- C7 (amended). Edit calls are throttled by the last edit-attempt
timestamp: successive edit calls (and the first call after the stored
timestamp) are always at least `MIN_EDIT_INTERVAL` apart, and in the
claim's scenario — two fragments within the interval of the last edit and a
third after it elapses — exactly the first and third fragments trigger
edit calls. -/
theorem edit_throttle_spec (last : ℚ) (lastSuccess : Option ℚ)
    (arrivals : List (ℚ × Bool)) (t1 t2 t3 : ℚ)
    (h1 : last + MIN_EDIT_INTERVAL ≤ t1) (h2 : t2 < t1 + MIN_EDIT_INTERVAL)
    (h3 : t1 + MIN_EDIT_INTERVAL ≤ t3) :
    List.Chain (fun a b => a + MIN_EDIT_INTERVAL ≤ b) last
      ((throttleRun last lastSuccess arrivals).1)
    ∧ (throttleRun last lastSuccess [(t1, true), (t2, true), (t3, true)]).1 = [t1, t3] := by
  constructor
  · exact throttleRun_chain arrivals last lastSuccess
  · have hn2 : ¬ (t1 + MIN_EDIT_INTERVAL ≤ t2) := not_le.mpr h2
    simp only [throttleRun, if_pos h1, if_neg hn2, if_pos h3]

/-- Witness for C7 at `last = 0`, fragments at times `1`, `3/2`, `2`. -/
theorem edit_throttle_spec_witness :
    ((0 : ℚ) + MIN_EDIT_INTERVAL ≤ 1 ∧ (3/2 : ℚ) < 1 + MIN_EDIT_INTERVAL
      ∧ (1 : ℚ) + MIN_EDIT_INTERVAL ≤ 2) ∧
    (List.Chain (fun a b => a + MIN_EDIT_INTERVAL ≤ b) 0
        ((throttleRun 0 none [(1, true)]).1)
      ∧ (throttleRun 0 none [(1, true), (3/2, true), (2, true)]).1 = [1, 2]) :=
  ⟨⟨by norm_num [MIN_EDIT_INTERVAL], by norm_num [MIN_EDIT_INTERVAL],
      by norm_num [MIN_EDIT_INTERVAL]⟩,
    edit_throttle_spec 0 none [(1, true)] 1 (3/2) 2
      (by norm_num [MIN_EDIT_INTERVAL]) (by norm_num [MIN_EDIT_INTERVAL])
      (by norm_num [MIN_EDIT_INTERVAL])⟩

/-- C6 (counterexample). A stream that yields one whitespace-only fragment
still triggers the non-streaming fallback (the source tests
`raw_answer.strip()`, not whether fragments arrived), contradicting the
claim that the fallback is not invoked when at least one fragment was
received. -/
theorem empty_stream_fallback_cex :
    ((process_backend_calls [] "q".toList [" ".toList] "ans".toList).1).length = 1
    ∧ ([" ".toList] : List (List Char)) ≠ []
    ∧ " ".toList ≠ ([] : List Char) := by
  exact ⟨by decide, by decide, by decide⟩

/-- C6 (amended). The non-streaming fallback is invoked exactly once, with
the same request window, precisely when the accumulated raw answer is empty
or whitespace-only — in particular when no fragment arrived — and its
cleaned result is the final answer; when the raw answer has visible
content the fallback is not invoked and the cleaned stream answer is
final. -/
theorem empty_stream_fallback (history : List Turn) (userText : List Char)
    (frags : List (List Char)) (nonStreamReply : List Char) :
    (trimWs frags.flatten = [] →
      (process_backend_calls history userText frags nonStreamReply).1
        = [pyLastSlice MAX_HISTORY_MESSAGES (history ++ [⟨userRole, userText⟩])]
      ∧ (process_backend_calls history userText frags nonStreamReply).2
        = strip_think_from_text nonStreamReply)
    ∧ (trimWs frags.flatten ≠ [] →
      (process_backend_calls history userText frags nonStreamReply).1 = []
      ∧ (process_backend_calls history userText frags nonStreamReply).2
        = strip_think_from_text frags.flatten) := by
  constructor
  · intro h
    simp only [process_backend_calls, if_pos h]
    exact ⟨trivial, trivial⟩
  · intro h
    simp only [process_backend_calls, if_neg h]
    exact ⟨trivial, trivial⟩

/-- Witness for C6: an empty fragment list invokes the fallback once with
the single-turn window. -/
theorem empty_stream_fallback_witness :
    (trimWs (List.flatten ([] : List (List Char))) = []) ∧
    ((process_backend_calls [] "q".toList [] "r".toList).1
        = [pyLastSlice MAX_HISTORY_MESSAGES ([] ++ [⟨userRole, "q".toList⟩])]
      ∧ (process_backend_calls [] "q".toList [] "r".toList).2
        = strip_think_from_text "r".toList) :=
  ⟨by decide, (empty_stream_fallback [] "q".toList [] "r".toList).1 (by decide)⟩

theorem extractEv_no_events :
    ∀ (s b : List Char), extractEv s = ([], b) → b = s := by
  intro s
  induction s using extractEv.induct with
  | case1 =>
    intro b h
    simp only [extractEv] at h
    cases h
    rfl
  | case2 c =>
    intro b h
    simp only [extractEv] at h
    cases h
    rfl
  | case3 c1 c2 rest hsep ih =>
    intro b h
    rw [show extractEv (c1 :: c2 :: rest)
        = if c1 = '\n' ∧ c2 = '\n' then ([] :: (extractEv rest).1, (extractEv rest).2)
          else match extractEv (c2 :: rest) with
            | (e :: es, bb) => ((c1 :: e) :: es, bb)
            | ([], bb) => ([], c1 :: bb) from rfl, if_pos hsep] at h
    simp at h
  | case4 c1 c2 rest hsep e es bb hmatch ih =>
    intro b h
    rw [show extractEv (c1 :: c2 :: rest)
        = if c1 = '\n' ∧ c2 = '\n' then ([] :: (extractEv rest).1, (extractEv rest).2)
          else match extractEv (c2 :: rest) with
            | (e :: es, bb) => ((c1 :: e) :: es, bb)
            | ([], bb) => ([], c1 :: bb) from rfl, if_neg hsep, hmatch] at h
    simp at h
  | case5 c1 c2 rest hsep bb hmatch ih =>
    intro b h
    rw [show extractEv (c1 :: c2 :: rest)
        = if c1 = '\n' ∧ c2 = '\n' then ([] :: (extractEv rest).1, (extractEv rest).2)
          else match extractEv (c2 :: rest) with
            | (e :: es, bb2) => ((c1 :: e) :: es, bb2)
            | ([], bb2) => ([], c1 :: bb2) from rfl, if_neg hsep, hmatch] at h
    cases h
    have := ih bb hmatch
    rw [this]

theorem extractEv_cons2 (c1 c2 : Char) (rest : List Char) :
    extractEv (c1 :: c2 :: rest)
      = if c1 = '\n' ∧ c2 = '\n' then ([] :: (extractEv rest).1, (extractEv rest).2)
        else match extractEv (c2 :: rest) with
          | (e :: es, bb) => ((c1 :: e) :: es, bb)
          | ([], bb) => ([], c1 :: bb) := rfl

theorem extractEv_append (t : List Char) :
    ∀ s : List Char,
      extractEv (s ++ t)
        = ((extractEv s).1 ++ (extractEv ((extractEv s).2 ++ t)).1,
           (extractEv ((extractEv s).2 ++ t)).2) := by
  intro s
  induction s using extractEv.induct with
  | case1 => simp [extractEv]
  | case2 c => simp [extractEv]
  | case3 c1 c2 rest hsep ih =>
    obtain ⟨rfl, rfl⟩ := hsep
    simp only [List.cons_append]
    rw [extractEv_cons2, if_pos ⟨rfl, rfl⟩, extractEv_cons2, if_pos ⟨rfl, rfl⟩, ih]
    simp
  | case4 c1 c2 rest hsep e es bb hmatch ih =>
    have hL : extractEv (c1 :: c2 :: rest) = ((c1 :: e) :: es, bb) := by
      rw [extractEv_cons2, if_neg hsep, hmatch]
    simp only [List.cons_append]
    rw [extractEv_cons2, if_neg hsep, hL]
    have ihx := ih
    simp only [List.cons_append] at ihx
    rw [ihx, hmatch]
    simp
  | case5 c1 c2 rest hsep bb hmatch ih =>
    have hbb : bb = c2 :: rest := extractEv_no_events _ _ hmatch
    subst hbb
    have hL : extractEv (c1 :: c2 :: rest) = ([], c1 :: c2 :: rest) := by
      rw [extractEv_cons2, if_neg hsep, hmatch]
    rw [hL]
    simp

theorem extractEv_leftover :
    ∀ s : List Char, extractEv ((extractEv s).2) = ([], (extractEv s).2) := by
  intro s
  induction s using extractEv.induct with
  | case1 => simp [extractEv]
  | case2 c => simp [extractEv]
  | case3 c1 c2 rest hsep ih =>
    rw [extractEv_cons2, if_pos hsep]
    exact ih
  | case4 c1 c2 rest hsep e es bb hmatch ih =>
    rw [extractEv_cons2, if_neg hsep, hmatch]
    rw [hmatch] at ih
    exact ih
  | case5 c1 c2 rest hsep bb hmatch ih =>
    have hbb : bb = c2 :: rest := extractEv_no_events _ _ hmatch
    subst hbb
    have hL : extractEv (c1 :: c2 :: rest) = ([], c1 :: c2 :: rest) := by
      rw [extractEv_cons2, if_neg hsep, hmatch]
    rw [hL, hL]

theorem feedEvents_flatten :
    ∀ (cs : List (List Char)) (buf : List Char), extractEv buf = ([], buf) →
      feedEvents cs buf = extractEv (buf ++ cs.flatten) := by
  intro cs
  induction cs with
  | nil =>
    intro buf h
    simp only [feedEvents, List.flatten_nil, List.append_nil, h]
  | cons t ts ih =>
    intro buf _
    simp only [feedEvents]
    rw [ih _ (extractEv_leftover (buf ++ t))]
    rw [List.flatten_cons, ← List.append_assoc]
    rw [extractEv_append ts.flatten (buf ++ t)]

/-- C4 (amended, persistent-buffer part). SSE event splitting operates on a
persistent buffer: feeding any sequence of decoded text chunks through the
source's buffer-and-split loop yields exactly the events of the
concatenated text, so an event split across chunks is reassembled before
parsing, independently of the chunk boundaries. -/
theorem sse_buffer_rechunk (textChunks : List (List Char)) :
    feedEvents textChunks [] = extractEv textChunks.flatten := by
  have h0 : extractEv ([] : List Char) = ([], []) := rfl
  have h := feedEvents_flatten textChunks [] h0
  simpa using h

/-- C4 (counterexample). The source decodes each received chunk on its own
with `errors="ignore"`, so the two-byte character `é = C3 A9` split across
two chunks is dropped entirely, while the buffered decoding the claim
describes would decode it intact. -/
theorem utf8_chunk_decode_cex :
    perChunkDecode [[195], [169]] = ([] : List Char)
    ∧ decodeUtf8Ignore ([195] ++ [169]) = ['é']
    ∧ perChunkDecode [[195], [169]] ≠ decodeUtf8Ignore ([195] ++ [169]) := by
  refine ⟨by decide, by decide, by decide⟩

theorem trimWs_cons_space (ds : List Char) : trimWs (' ' :: ds) = trimWs ds := by
  have h : isWs ' ' = true := rfl
  simp [trimWs, List.dropWhile_cons, h]

theorem processDataLine_eq_payload (parse : List Char → Option Json) (ds : List Char)
    (h : trimWs ds = ds) :
    processDataLine parse (dataTok ++ ' ' :: ds) = processPayload parse ds := by
  rw [processDataLine]
  have hpre : hasPrefixC dataTok (dataTok ++ ' ' :: ds) = true := hasPrefixC_append _ _
  rw [hpre]
  simp only [Bool.true_eq_false, if_false]
  rw [List.drop_left, trimWs_cons_space, h]

/-- C5 (counterexample). A transport exception that interrupts the body
iteration after an event was already parsed terminates the stream without
raising, but the fragment already yielded is not retracted: the sequence
is `["hi"]`, not zero fragments as the claim states for any
transport-level exception. -/
theorem stream_exception_fragments_cex :
    stream_backend_response parseStub
        (some (200, [StreamItem.chunk (asciiBytes "data: X\n\n".toList), StreamItem.err]))
      = [Json.str "hi".toList]
    ∧ [Json.str "hi".toList] ≠ ([] : List Json) := by
  constructor
  · rfl
  · simp

/-- C5 (amended). The fragment sequence of `stream_backend_response`: a
transport exception at request time and a non-200 status each yield zero
fragments without raising; a transport exception during the body iteration
ends the stream with no further fragments (fragments already yielded are
kept); a stripped `data:` payload of `[DONE]` terminates the stream, and
within an event list processing stops at the first `[DONE]`; a payload
that fails to parse is skipped without terminating the stream; and a
payload parsing to a delta object with non-empty `content` yields that
content as a fragment. -/
theorem stream_events_spec (parse : List Char → Option Json) :
    (stream_backend_response parse none = [])
    ∧ (∀ status items, status ≠ 200 →
        stream_backend_response parse (some (status, items)) = [])
    ∧ (∀ rest buffer, streamLoop parse (StreamItem.err :: rest) buffer = [])
    ∧ (∀ ds, trimWs ds = ds → ds ≠ [] → ds ≠ doneTok → parse ds = none →
        processDataLine parse (dataTok ++ ' ' :: ds) = .skip)
    ∧ (∀ ds s, trimWs ds = ds → ds ≠ [] → ds ≠ doneTok →
        parse ds = some (mkContentObj s) → s ≠ [] →
        processDataLine parse (dataTok ++ ' ' :: ds) = .emit (Json.str s))
    ∧ (processDataLine parse (dataTok ++ ' ' :: doneTok) = .done)
    ∧ (∀ e es, (processEvent parse e).2 = true →
        processEventsList parse (e :: es) = ((processEvent parse e).1, true)) := by
  refine ⟨rfl, ?_, ?_, ?_, ?_, ?_, ?_⟩
  · intro status items h
    simp [stream_backend_response, h]
  · intro rest buffer
    rfl
  · intro ds h1 h2 h3 h4
    rw [processDataLine_eq_payload parse ds h1, processPayload, if_neg h2, if_neg h3, h4]
  · intro ds s h1 h2 h3 h4 h5
    rw [processDataLine_eq_payload parse ds h1, processPayload, if_neg h2, if_neg h3, h4]
    have hs : s.isEmpty = false := by
      cases s with
      | nil => exact absurd rfl h5
      | cons a l => rfl
    simp [mkContentObj, jsonGet, jsonTruthy, List.lookup, hs]
  · rw [processDataLine_eq_payload parse doneTok (by rfl), processPayload]
    rfl
  · intro e es h
    simp [processEventsList, h]

/-- Witness for C5: the stub parser on the payload `"X"` yields the
fragment `"hi"`. -/
theorem stream_events_spec_witness :
    (trimWs "X".toList = "X".toList ∧ "X".toList ≠ ([] : List Char)
      ∧ "X".toList ≠ doneTok
      ∧ parseStub "X".toList = some (mkContentObj "hi".toList)
      ∧ "hi".toList ≠ ([] : List Char)) ∧
    processDataLine parseStub (dataTok ++ ' ' :: "X".toList)
      = .emit (Json.str "hi".toList) :=
  ⟨⟨by decide, by decide, by decide, rfl, by decide⟩,
    (stream_events_spec parseStub).2.2.2.2.1 "X".toList "hi".toList
      (by decide) (by decide) (by decide) rfl (by decide)⟩

theorem occursB_iff {pat s : List Char} : occursB pat s = true ↔ occursIn pat s := by
  constructor
  · intro h
    rw [occursB] at h
    cases hsf : splitFirst pat s with
    | none => rw [hsf] at h; simp at h
    | some pr =>
      cases pr with
      | mk pre post => exact occursIn_of_splitFirst hsf
  · intro h
    exact splitFirst_isSome_of_occursIn h

theorem occursB_false_iff {pat s : List Char} :
    occursB pat s = false ↔ ¬ occursIn pat s := by
  constructor
  · intro h hocc
    rw [occursB_iff.mpr hocc] at h
    simp at h
  · intro h
    cases hb : occursB pat s with
    | false => rfl
    | true => exact absurd (occursB_iff.mp hb) h

theorem tokenFreeB_iff {s : List Char} : tokenFreeB s = true ↔ tokenFree s := by
  simp only [tokenFreeB, tokenFree, Bool.and_eq_true, Bool.not_eq_true',
    occursB_false_iff]
  tauto

theorem occurs_mono {pat q a b s : List Char} (hdec : pat = a ++ q ++ b)
    (h : occursIn pat s) : occursIn q s := by
  obtain ⟨x, y, rfl⟩ := h
  exact ⟨x ++ a, b ++ y, by rw [hdec]; simp⟩

theorem replaceAllGo_id {pat rep : List Char} :
    ∀ (f : Nat) (s : List Char), ¬ occursIn pat s → replaceAllGo pat rep f s = s := by
  intro f
  induction f with
  | zero => intro s _; cases s <;> rfl
  | succ f ih =>
    intro s h
    cases s with
    | nil => rfl
    | cons c rest =>
      rw [replaceAllGo]
      have hp : hasPrefixC pat (c :: rest) = false := by
        cases hpc : hasPrefixC pat (c :: rest) with
        | false => rfl
        | true =>
          exact absurd ⟨[], (c :: rest).drop pat.length, by
            simpa using eq_append_of_hasPrefixC hpc⟩ h
      rw [hp]
      simp only [Bool.false_eq_true, if_false]
      rw [ih rest (fun hr => h (occurs_cons c hr))]

theorem subPairGo_id {opT clT wrap : List Char} (f : Nat) {s : List Char}
    (h : splitFirst opT s = none) : subPairGo opT clT wrap f s = s := by
  cases f with
  | zero => rfl
  | succ g => rw [subPairGo, h]

theorem hasPrefixC_replaceAllGo {pat rep : List Char} (hrepne : rep ≠ []) :
    ∀ (f : Nat) (q s : List Char), q ≠ [] → (∀ ch ∈ rep, ch ∉ q) →
      hasPrefixC q (replaceAllGo pat rep f s) = true → hasPrefixC q s = true := by
  intro f
  induction f with
  | zero =>
    intro q s _ _ h
    cases s with
    | nil => exact h
    | cons c rest => exact h
  | succ f ih =>
    intro q s hq hrep h
    cases s with
    | nil => exact h
    | cons c rest =>
      rw [replaceAllGo] at h
      by_cases hp : hasPrefixC pat (c :: rest) = true
      · rw [if_pos hp] at h
        cases q with
        | nil => exact absurd rfl hq
        | cons qh qt =>
          cases rep with
          | nil => exact absurd rfl hrepne
          | cons rh rt =>
            simp only [List.cons_append, hasPrefixC, Bool.and_eq_true, beq_iff_eq] at h
            have hmem : rh ∉ (qh :: qt) := hrep rh (by simp)
            exact absurd (by simp [h.1]) hmem
      · rw [if_neg hp] at h
        cases q with
        | nil => exact absurd rfl hq
        | cons qh qt =>
          simp only [hasPrefixC, Bool.and_eq_true, beq_iff_eq] at h ⊢
          refine ⟨h.1, ?_⟩
          by_cases hqt : qt = []
          · subst hqt; rfl
          · have hrep' : ∀ ch ∈ rep, ch ∉ qt := fun ch hch hmemq =>
              hrep ch hch (by simp [hmemq])
            exact ih qt rest hqt hrep' h.2

theorem replaceAllGo_no_occurs {pat rep : List Char} (hpat : pat ≠ []) (hrepne : rep ≠ [])
    (hrep : ∀ ch ∈ rep, ch ∉ pat) :
    ∀ (f : Nat) (s : List Char), s.length ≤ f →
      ¬ occursIn pat (replaceAllGo pat rep f s) := by
  intro f
  induction f with
  | zero =>
    intro s hs
    have hnil : s = [] := by
      cases s with
      | nil => rfl
      | cons c rest => simp at hs
    subst hnil
    intro h
    obtain ⟨x, y, hxy⟩ := h
    cases x with
    | nil =>
      cases pat with
      | nil => exact hpat rfl
      | cons p ps => simp [replaceAllGo] at hxy
    | cons a x' => simp [replaceAllGo] at hxy
  | succ f ih =>
    intro s hs
    cases s with
    | nil =>
      intro h
      obtain ⟨x, y, hxy⟩ := h
      cases x with
      | nil =>
        cases pat with
        | nil => exact hpat rfl
        | cons p ps => simp [replaceAllGo] at hxy
      | cons a x' => simp [replaceAllGo] at hxy
    | cons c rest =>
      rw [replaceAllGo]
      by_cases hp : hasPrefixC pat (c :: rest) = true
      · rw [if_pos hp]
        intro hocc
        rcases occurs_split_two hocc with ⟨b, hb1, hb2⟩ | hocc2
        · exact hrep b hb1 hb2
        · have hlen : (rest.drop (pat.length - 1)).length ≤ f := by
            simp only [List.length_drop]
            simp only [List.length_cons] at hs
            omega
          exact ih _ hlen hocc2
      · rw [if_neg hp]
        intro hocc
        obtain ⟨x, y, hxy⟩ := hocc
        cases x with
        | cons a x' =>
          simp only [List.cons_append, List.cons.injEq] at hxy
          have hocc' : occursIn pat (replaceAllGo pat rep f rest) := ⟨x', y, hxy.2⟩
          have hlen : rest.length ≤ f := by
            simp only [List.length_cons] at hs
            omega
          exact ih rest hlen hocc'
        | nil =>
          cases pat with
          | nil => exact hpat rfl
          | cons ph pt =>
            simp only [List.nil_append, List.cons_append, List.cons.injEq] at hxy
            obtain ⟨rfl, htail⟩ := hxy
            have hqt : hasPrefixC pt (replaceAllGo (c :: pt) rep f rest) = true := by
              rw [htail]
              exact hasPrefixC_append pt y
            by_cases hpt : pt = []
            · subst hpt
              apply hp
              simp [hasPrefixC]
            · have hrep' : ∀ ch ∈ rep, ch ∉ pt := fun ch hch hmemq =>
                hrep ch hch (by simp [hmemq])
              have := hasPrefixC_replaceAllGo hrepne f pt rest hpt hrep' hqt
              apply hp
              simp [hasPrefixC, this]

theorem replaceAllGo_preserves {pat rep q : List Char} (hrepne : rep ≠ [])
    (hrep : ∀ ch ∈ rep, ch ∉ q) :
    ∀ (f : Nat) (s : List Char), ¬ occursIn q s →
      ¬ occursIn q (replaceAllGo pat rep f s) := by
  intro f
  induction f with
  | zero =>
    intro s h
    cases s with
    | nil => exact h
    | cons c rest => exact h
  | succ f ih =>
    intro s h
    cases s with
    | nil => exact h
    | cons c rest =>
      rw [replaceAllGo]
      by_cases hp : hasPrefixC pat (c :: rest) = true
      · rw [if_pos hp]
        intro hocc
        rcases occurs_split_two hocc with ⟨b, hb1, hb2⟩ | hocc2
        · exact hrep b hb1 hb2
        · have hnr : ¬ occursIn q (rest.drop (pat.length - 1)) := fun hd =>
            h (occurs_cons c (occurs_drop _ hd))
          exact ih _ hnr hocc2
      · rw [if_neg hp]
        intro hocc
        obtain ⟨x, y, hxy⟩ := hocc
        cases x with
        | cons a x' =>
          simp only [List.cons_append, List.cons.injEq] at hxy
          have hnr : ¬ occursIn q (replaceAllGo pat rep f rest) :=
            ih rest (fun hr => h (occurs_cons c hr))
          exact hnr ⟨x', y, hxy.2⟩
        | nil =>
          cases q with
          | nil => exact h ⟨[], c :: rest, by simp⟩
          | cons qh qt =>
            simp only [List.nil_append, List.cons_append, List.cons.injEq] at hxy
            obtain ⟨rfl, htail⟩ := hxy
            have hqt : hasPrefixC qt (replaceAllGo pat rep f rest) = true := by
              rw [htail]
              exact hasPrefixC_append qt y
            by_cases hpt : qt = []
            · subst hpt
              exact h ⟨[], rest, by simp⟩
            · have hrep' : ∀ ch ∈ rep, ch ∉ qt := fun ch hch hmemq =>
                hrep ch hch (by simp [hmemq])
              have hpre := hasPrefixC_replaceAllGo hrepne f qt rest hpt hrep' hqt
              have hsplit := eq_append_of_hasPrefixC hpre
              have hshape : c :: rest = [] ++ (c :: qt) ++ rest.drop qt.length := by
                simp only [List.nil_append, List.cons_append]
                exact congrArg (List.cons c) hsplit
              exact h ⟨[], rest.drop qt.length, hshape⟩

theorem tokenFree_iff_not {s : List Char} : tokenFree s ↔ ¬ someTokOccurs s := by
  rw [tokenFree, someTokOccurs]
  tauto

theorem someTokOccurs_drop {s : List Char} (k : Nat) (h : someTokOccurs (s.drop k)) :
    someTokOccurs s := by
  rcases h with h | h | h | h
  · exact Or.inl (occurs_drop k h)
  · exact Or.inr (Or.inl (occurs_drop k h))
  · exact Or.inr (Or.inr (Or.inl (occurs_drop k h)))
  · exact Or.inr (Or.inr (Or.inr (occurs_drop k h)))

theorem someTokOccurs_cons {s : List Char} (c : Char) (h : someTokOccurs s) :
    someTokOccurs (c :: s) := by
  rcases h with h | h | h | h
  · exact Or.inl (occurs_cons c h)
  · exact Or.inr (Or.inl (occurs_cons c h))
  · exact Or.inr (Or.inr (Or.inl (occurs_cons c h)))
  · exact Or.inr (Or.inr (Or.inr (occurs_cons c h)))

theorem not_occurs_nil {pat : List Char} (h : pat ≠ []) : ¬ occursIn pat [] := by
  intro ho
  obtain ⟨x, y, hxy⟩ := ho
  cases x with
  | nil =>
    cases pat with
    | nil => exact h rfl
    | cons p ps => simp at hxy
  | cons a x' => simp at hxy

theorem tokenFree_nil : tokenFree [] :=
  ⟨not_occurs_nil (by decide), not_occurs_nil (by decide),
    not_occurs_nil (by decide), not_occurs_nil (by decide)⟩

theorem tryTok_occurs {s r : List Char} (h : tryTok s = some r) : someTokOccurs s := by
  rw [tryTok] at h
  by_cases h1 : hasPrefixC bopenTok s = true
  · exact Or.inl ⟨[], s.drop bopenTok.length, by simpa using eq_append_of_hasPrefixC h1⟩
  · rw [if_neg h1] at h
    by_cases h2 : hasPrefixC bcloseTok s = true
    · exact Or.inr (Or.inl ⟨[], s.drop bcloseTok.length, by
        simpa using eq_append_of_hasPrefixC h2⟩)
    · rw [if_neg h2] at h
      by_cases h3 : hasPrefixC iopenTok s = true
      · exact Or.inr (Or.inr (Or.inl ⟨[], s.drop iopenTok.length, by
          simpa using eq_append_of_hasPrefixC h3⟩))
      · rw [if_neg h3] at h
        by_cases h4 : hasPrefixC icloseTok s = true
        · exact Or.inr (Or.inr (Or.inr ⟨[], s.drop icloseTok.length, by
            simpa using eq_append_of_hasPrefixC h4⟩))
        · rw [if_neg h4] at h
          cases h

theorem matchResidualAt_occurs {s r : List Char} (h : matchResidualAt s = some r) :
    someTokOccurs s := by
  rw [matchResidualAt] at h
  by_cases ha : hasPrefixC atat s = true
  · rw [if_pos ha] at h
    cases ht : tryTok (s.drop 2) with
    | some r2 => exact someTokOccurs_drop 2 (tryTok_occurs ht)
    | none =>
      rw [ht] at h
      by_cases hb : hasPrefixC at1 s = true
      · rw [if_pos hb] at h
        cases ht1 : tryTok (s.drop 1) with
        | some r1 => exact someTokOccurs_drop 1 (tryTok_occurs ht1)
        | none =>
          rw [ht1] at h
          cases ht0 : tryTok s with
          | some r0 => exact tryTok_occurs ht0
          | none => rw [ht0] at h; cases h
      · rw [if_neg hb] at h
        cases ht0 : tryTok s with
        | some r0 => exact tryTok_occurs ht0
        | none => rw [ht0] at h; cases h
  · rw [if_neg ha] at h
    by_cases hb : hasPrefixC at1 s = true
    · rw [if_pos hb] at h
      cases ht1 : tryTok (s.drop 1) with
      | some r1 => exact someTokOccurs_drop 1 (tryTok_occurs ht1)
      | none =>
        rw [ht1] at h
        cases ht0 : tryTok s with
        | some r0 => exact tryTok_occurs ht0
        | none => rw [ht0] at h; cases h
    · rw [if_neg hb] at h
      cases ht0 : tryTok s with
      | some r0 => exact tryTok_occurs ht0
      | none => rw [ht0] at h; cases h

theorem stripResidualGo_id :
    ∀ (f : Nat) (s : List Char), ¬ someTokOccurs s → stripResidualGo f s = s := by
  intro f
  induction f with
  | zero => intro s _; rfl
  | succ f ih =>
    intro s h
    cases s with
    | nil => rfl
    | cons c rest =>
      rw [stripResidualGo]
      cases hm : matchResidualAt (c :: rest) with
      | some r => exact absurd (matchResidualAt_occurs hm) h
      | none => rw [ih rest (fun hr => h (someTokOccurs_cons c hr))]

theorem replaceChain_tokenFree (t : List Char) : tokenFree (replaceChain t) := by
  rw [replaceChain]
  set a1 := replaceAllL atBopenTok star2 t with ha1
  set a2 := replaceAllL atBcloseTok star2 a1 with ha2
  set a3 := replaceAllL bopenTok star2 a2 with ha3
  set a4 := replaceAllL bcloseTok star2 a3 with ha4
  set a5 := replaceAllL atIopenTok star1 a4 with ha5
  set a6 := replaceAllL atIcloseTok star1 a5 with ha6
  set a7 := replaceAllL iopenTok star1 a6 with ha7
  set a8 := replaceAllL icloseTok star1 a7 with ha8
  have hB3 : ¬ occursIn bopenTok a3 := by
    rw [ha3]
    exact replaceAllGo_no_occurs (by decide) (by decide) (by decide) a2.length a2 (le_refl _)
  have hB4 : ¬ occursIn bopenTok a4 := by
    rw [ha4]
    exact replaceAllGo_preserves (by decide) (by decide) a3.length a3 hB3
  have hB5 : ¬ occursIn bopenTok a5 := by
    rw [ha5]
    exact replaceAllGo_preserves (by decide) (by decide) a4.length a4 hB4
  have hB6 : ¬ occursIn bopenTok a6 := by
    rw [ha6]
    exact replaceAllGo_preserves (by decide) (by decide) a5.length a5 hB5
  have hB7 : ¬ occursIn bopenTok a7 := by
    rw [ha7]
    exact replaceAllGo_preserves (by decide) (by decide) a6.length a6 hB6
  have hB8 : ¬ occursIn bopenTok a8 := by
    rw [ha8]
    exact replaceAllGo_preserves (by decide) (by decide) a7.length a7 hB7
  have hC4 : ¬ occursIn bcloseTok a4 := by
    rw [ha4]
    exact replaceAllGo_no_occurs (by decide) (by decide) (by decide) a3.length a3 (le_refl _)
  have hC5 : ¬ occursIn bcloseTok a5 := by
    rw [ha5]
    exact replaceAllGo_preserves (by decide) (by decide) a4.length a4 hC4
  have hC6 : ¬ occursIn bcloseTok a6 := by
    rw [ha6]
    exact replaceAllGo_preserves (by decide) (by decide) a5.length a5 hC5
  have hC7 : ¬ occursIn bcloseTok a7 := by
    rw [ha7]
    exact replaceAllGo_preserves (by decide) (by decide) a6.length a6 hC6
  have hC8 : ¬ occursIn bcloseTok a8 := by
    rw [ha8]
    exact replaceAllGo_preserves (by decide) (by decide) a7.length a7 hC7
  have hI7 : ¬ occursIn iopenTok a7 := by
    rw [ha7]
    exact replaceAllGo_no_occurs (by decide) (by decide) (by decide) a6.length a6 (le_refl _)
  have hI8 : ¬ occursIn iopenTok a8 := by
    rw [ha8]
    exact replaceAllGo_preserves (by decide) (by decide) a7.length a7 hI7
  have hIC8 : ¬ occursIn icloseTok a8 := by
    rw [ha8]
    exact replaceAllGo_no_occurs (by decide) (by decide) (by decide) a7.length a7 (le_refl _)
  exact ⟨hB8, hC8, hI8, hIC8⟩

theorem sanitize_tokenFree (s : List Char) : tokenFree (sanitize_llm_artifacts s) := by
  rw [sanitize_llm_artifacts]
  by_cases hs : s = []
  · rw [if_pos hs]
    exact tokenFree_nil
  · rw [if_neg hs]
    have h := replaceChain_tokenFree (pairChain s)
    rw [stripResidual, stripResidualGo_id _ _ (tokenFree_iff_not.mp h)]
    exact h

theorem sanitize_id_of_tokenFree {t : List Char} (h : tokenFree t) :
    sanitize_llm_artifacts t = t := by
  rw [sanitize_llm_artifacts]
  by_cases ht : t = []
  · rw [if_pos ht, ht]
  · rw [if_neg ht]
    obtain ⟨h1, h2, h3, h4⟩ := h
    have hdB : atBopenTok = atat ++ bopenTok ++ atat := by decide
    have hdBC : atBcloseTok = atat ++ bcloseTok ++ atat := by decide
    have hdI : atIopenTok = atat ++ iopenTok ++ atat := by decide
    have hdIC : atIcloseTok = atat ++ icloseTok ++ atat := by decide
    have hp1 : subPairL atBopenTok atBcloseTok star2 t = t :=
      subPairGo_id _ (splitFirst_eq_none_of_not_occurs (fun ho => h1 (occurs_mono hdB ho)))
    have hp2 : subPairL bopenTok bcloseTok star2 t = t :=
      subPairGo_id _ (splitFirst_eq_none_of_not_occurs h1)
    have hp3 : subPairL atIopenTok atIcloseTok star1 t = t :=
      subPairGo_id _ (splitFirst_eq_none_of_not_occurs (fun ho => h3 (occurs_mono hdI ho)))
    have hp4 : subPairL iopenTok icloseTok star1 t = t :=
      subPairGo_id _ (splitFirst_eq_none_of_not_occurs h3)
    have hpc : pairChain t = t := by
      rw [pairChain, hp1, hp2, hp3, hp4]
    have hr1 : replaceAllL atBopenTok star2 t = t :=
      replaceAllGo_id _ _ (fun ho => h1 (occurs_mono hdB ho))
    have hr2 : replaceAllL atBcloseTok star2 t = t :=
      replaceAllGo_id _ _ (fun ho => h2 (occurs_mono hdBC ho))
    have hr3 : replaceAllL bopenTok star2 t = t := replaceAllGo_id _ _ h1
    have hr4 : replaceAllL bcloseTok star2 t = t := replaceAllGo_id _ _ h2
    have hr5 : replaceAllL atIopenTok star1 t = t :=
      replaceAllGo_id _ _ (fun ho => h3 (occurs_mono hdI ho))
    have hr6 : replaceAllL atIcloseTok star1 t = t :=
      replaceAllGo_id _ _ (fun ho => h4 (occurs_mono hdIC ho))
    have hr7 : replaceAllL iopenTok star1 t = t := replaceAllGo_id _ _ h3
    have hr8 : replaceAllL icloseTok star1 t = t := replaceAllGo_id _ _ h4
    have hrc : replaceChain t = t := by
      rw [replaceChain, hr1, hr2, hr3, hr4, hr5, hr6, hr7, hr8]
    rw [hpc, hrc, stripResidual,
      stripResidualGo_id _ _ (tokenFree_iff_not.mp ⟨h1, h2, h3, h4⟩)]

/-- C10. `sanitize_llm_artifacts` is idempotent on every input, and input
already free of artifact marker tokens is returned unchanged. -/
theorem sanitize_llm_artifacts_idem (t : List Char) :
    sanitize_llm_artifacts (sanitize_llm_artifacts t) = sanitize_llm_artifacts t
    ∧ (tokenFreeB t = true → sanitize_llm_artifacts t = t) := by
  constructor
  · exact sanitize_id_of_tokenFree (sanitize_tokenFree t)
  · intro h
    exact sanitize_id_of_tokenFree (tokenFreeB_iff.mp h)

/-- Witness for C10 at the clean input `"a ** b"`. -/
theorem sanitize_llm_artifacts_idem_witness :
    (tokenFreeB "a ** b".toList = true)
    ∧ sanitize_llm_artifacts "a ** b".toList = "a ** b".toList :=
  ⟨by decide, (sanitize_llm_artifacts_idem "a ** b".toList).2 (by decide)⟩

/-- C8 (counterexample). When the first edit fails on the candidate
`"a.b"`, the retry sends the raw candidate `"a.b"`, which differs from the
renderer output `"a\.b"`: the retry does not reuse the same renderer
output as the claim states. -/
theorem edit_retry_renderer_cex :
    (streamEditAttempts "a.b".toList true).1
      = [("a\\.b".toList, mdv2Mode), ("a.b".toList, mdv2Mode)]
    ∧ "a.b".toList ≠ "a\\.b".toList
    ∧ prepare_for_markdown_v2 "a.b".toList = "a\\.b".toList := by
  refine ⟨by decide, by decide, by decide⟩

/-- C8 (amended). A failed incremental edit is retried exactly once, with
the raw unrendered candidate under the same MarkdownV2 parse mode (not
with the renderer output); with no failure there is a single edit call
with the rendered text; and in both cases the stream continues (a failing
retry only drops the edit). -/
theorem edit_retry_spec (candidate : List Char) :
    (streamEditAttempts candidate false).1
      = [(prepare_for_markdown_v2 candidate, mdv2Mode)]
    ∧ (streamEditAttempts candidate true).1
      = [(prepare_for_markdown_v2 candidate, mdv2Mode), (candidate, mdv2Mode)]
    ∧ ((streamEditAttempts candidate true).1).length = 2
    ∧ (streamEditAttempts candidate true).2 = true
    ∧ (streamEditAttempts candidate false).2 = true :=
  ⟨rfl, rfl, rfl, rfl, rfl⟩

end Meno
